import Mathlib

/-!
# In-memory file system (`filesystem.cpp`)

A shallow embedding of the classes `Node`, `File`, `Directory` and `FileSystem`.

* A `std::string` is a list of characters.
* Objects live in a heap, a list of `Node` records; the address of an object is
  its index, and a `Node *` / `Directory *` is such an index (`nullptr` is
  `none`).  `make_shared` allocates at the first free index, the length of the
  heap.  Nothing is ever freed while the `FileSystem` is alive.
* `std::unordered_map<std::string, std::shared_ptr<Node>>` is an association
  list from names to addresses.
* `static_cast<Directory *>` does not change an address, so it is the identity
  on indices: the cast in `changeDirectory` stores whatever `findChild`
  returned, a `File` included.
* A `throw` leaves the state as it was when the exception was raised; an
  operation returns its outcome together with the state afterwards.
* `findChild` is `const` in effect: `Directory.findChild` returns the node only.
  `Directory.findChildTracked` follows the same lines with every access to
  `m_children` (`count`, `operator[]`) threaded through the heap, and is proved
  to agree with it.
-/

namespace InMemoryFS

/-- Contents of a `std::string`. -/
abbrev Str := List Char

/-- Enumeration `Node::NodeType`. -/
inductive NodeType where
  | FILE
  | DIRECTORY
  deriving DecidableEq

/-- Contents of `Directory::m_children`: pairs of a key and the address of the owned node. -/
abbrev Children := List (Str × Nat)

/-- Lookup in the map: the address stored under key `k`, when there is one. -/
def Children.find : Children → Str → Option Nat
  | [], _ => none
  | (k', v) :: rest, k => if k' = k then some v else Children.find rest k

/-- Member `unordered_map::count`: 1 when the key is present, 0 otherwise. -/
def Children.count (m : Children) (k : Str) : Nat :=
  match m.find k with
  | some _ => 1
  | none => 0

/-- Assignment `m[k] = v` of `unordered_map`: the value under an existing key is replaced, a new
key is inserted. -/
def Children.assign : Children → Str → Nat → Children
  | [], k, v => [(k, v)]
  | (k', v') :: rest, k, v =>
    if k' = k then (k, v) :: rest else (k', v') :: Children.assign rest k v

/-- An object of class `Node` (lines 10-26) with the members of its subclass.  `m_children`
exists in a `Directory` only; in a `File` the field is `[]` and no operation reads it. -/
structure Node where
  m_name : Str
  m_parent : Option Nat
  m_nodeType : NodeType
  m_children : Children
  deriving DecidableEq

/-- The heap: the object at address `i` is `heap[i]?`. -/
abbrev Heap := List Node

/-- Constructor `File(name, parent)` (lines 30-31). -/
def File.mk (name : Str) (parent : Option Nat) : Node :=
  { m_name := name, m_parent := parent, m_nodeType := NodeType.FILE, m_children := [] }

/-- Constructor `Directory(name, parent)` (lines 37-38); `m_children` starts empty. -/
def Directory.mk (name : Str) (parent : Option Nat) : Node :=
  { m_name := name, m_parent := parent, m_nodeType := NodeType.DIRECTORY, m_children := [] }

/-- The two `std::runtime_error`s the program throws. -/
inductive Thrown where
  /-- Message "File/Directory already exists." (line 52). -/
  | alreadyExists
  /-- Message "Not a valid path." (line 84). -/
  | notAValidPath
  deriving DecidableEq

/-- Outcome of a call. -/
inductive Result where
  /-- The call returned normally. -/
  | returned
  /-- The call left through an exception. -/
  | threw (e : Thrown)
  /-- The call used `m_children` / `m_mtx` of an object that is not a `Directory` (or of no
  object at all).  C++ gives such a call no meaning; it is reported as this outcome, with the
  state left as it was. -/
  | undefined
  deriving DecidableEq

/-- Method `Directory::createNode` (lines 40-57), called on the object at address `this`.
The new node is built first, parented to `this`; under the lock the name is looked up, and the
call throws when it is present and stores the new node otherwise. -/
def Directory.createNode (heap : Heap) (this : Nat) (name : Str) (isDirectory : Bool) :
    Result × Heap :=
  match heap[this]? with
  | none => (Result.undefined, heap)
  | some d =>
    if d.m_nodeType = NodeType.DIRECTORY then
      let temp : Node :=
        if isDirectory then Directory.mk name (some this) else File.mk name (some this)
      if d.m_children.count name ≠ 0 then
        (Result.threw Thrown.alreadyExists, heap)
      else
        (Result.returned,
          heap.set this { d with m_children := d.m_children.assign name heap.length } ++ [temp])
    else (Result.undefined, heap)

/-- The `while (temp)` loop of `Directory::printWorkingDirectory` (lines 62-65).  Each round
prepends the name of `temp`, followed by "/" unless `temp` has no parent, and moves to the
parent.  `fuel` bounds the number of rounds; `none` means the bound was reached (or `temp`
is not the address of an object). -/
def Directory.pwdLoop (heap : Heap) : Nat → Option Nat → Str → Option Str
  | _, none, pwd => some pwd
  | 0, some _, _ => none
  | fuel + 1, some t, pwd =>
    match heap[t]? with
    | none => none
    | some n =>
      Directory.pwdLoop heap fuel n.m_parent
        (n.m_name ++ (if n.m_parent = none then [] else ['/']) ++ pwd)

/-- Method `Directory::printWorkingDirectory` (lines 59-68) on the object at address `this`.
It reads `getParent` and `getName` only.  The loop gets one round per object of the heap. -/
def Directory.printWorkingDirectory (heap : Heap) (this : Nat) : Option Str :=
  match heap[this]? with
  | none => none
  | some n => Directory.pwdLoop heap heap.length n.m_parent n.m_name

/-- The values that `while (getline(ss, value, '/'))` reads from a stream holding the given
characters (line 77).  A read takes the characters up to the next '/' and discards that '/',
or takes the rest of the input; a read that starts at the end of the input fails and ends the
loop, so the input "a/" yields the single value "a" while "/" yields one empty value. -/
def getlines : Str → List Str
  | [] => []
  | c :: cs =>
    if c = '/' then [] :: getlines cs
    else
      match getlines cs with
      | [] => [[c]]
      | v :: vs => (c :: v) :: vs

/-- One round of the loop of `Directory::findChild` (lines 78-85): when `temp` is a directory
it is replaced by its child named `value` if there is one and kept otherwise; when it is not a
directory the call throws. -/
def Directory.findChildStep (heap : Heap) (temp : Nat) (value : Str) : Except Thrown Nat :=
  match heap[temp]? with
  | none => Except.error Thrown.notAValidPath
  | some n =>
    if n.m_nodeType = NodeType.DIRECTORY then
      match n.m_children.find value with
      | some child => Except.ok child
      | none => Except.ok temp
    else Except.error Thrown.notAValidPath

/-- The loop of `Directory::findChild` (lines 77-86) over the values read from the stream. -/
def Directory.findChildLoop (heap : Heap) : Nat → List Str → Except Thrown Nat
  | temp, [] => Except.ok temp
  | temp, value :: values =>
    match Directory.findChildStep heap temp value with
    | Except.error e => Except.error e
    | Except.ok temp' => Directory.findChildLoop heap temp' values

/-- Method `Directory::findChild` (lines 70-89) on the object at address `this`: the address it
returns, or the exception it throws.  It reads `m_children` only of nodes whose type it has
tested to be `DIRECTORY`. -/
def Directory.findChild (heap : Heap) (this : Nat) (path : Str) : Except Thrown Nat :=
  if path = [] then Except.ok this
  else Directory.findChildLoop heap this (getlines path)

/-- An object of class `FileSystem` (lines 96-130) together with the heap its pointers
refer to. -/
structure FileSystem where
  heap : Heap
  root : Nat
  current : Nat
  deriving DecidableEq

/-- Constructor `FileSystem()` (lines 102-105). -/
def FileSystem.new : FileSystem :=
  { heap := [Directory.mk ['/'] none], root := 0, current := 0 }

/-- Method `FileSystem::createDirectory` (lines 107-109). -/
def FileSystem.createDirectory (fs : FileSystem) (name : Str) : Result × FileSystem :=
  let r := Directory.createNode fs.heap fs.current name true
  (r.1, { fs with heap := r.2 })

/-- Method `FileSystem::createFile` (lines 111-113). -/
def FileSystem.createFile (fs : FileSystem) (name : Str) : Result × FileSystem :=
  let r := Directory.createNode fs.heap fs.current name false
  (r.1, { fs with heap := r.2 })

/-- Method `FileSystem::changeDirectory` (lines 115-125).  `current` is assigned only when
`findChild` returns; the assigned address is not tested to be a directory. -/
def FileSystem.changeDirectory (fs : FileSystem) (path : Str) : Result × FileSystem :=
  if path = [] then (Result.returned, fs)
  else if path.head? = some '/' then
    match Directory.findChild fs.heap fs.root path.tail with
    | Except.ok n => (Result.returned, { fs with current := n })
    | Except.error e => (Result.threw e, fs)
  else
    match Directory.findChild fs.heap fs.current path with
    | Except.ok n => (Result.returned, { fs with current := n })
    | Except.error e => (Result.threw e, fs)

/-- Method `FileSystem::printWorkingDirectory` (lines 127-129). -/
def FileSystem.printWorkingDirectory (fs : FileSystem) : Option Str :=
  Directory.printWorkingDirectory fs.heap fs.current

/-- A call of one of the three state-changing public methods of `FileSystem`. -/
inductive Op where
  | createDirectory (name : Str)
  | createFile (name : Str)
  | changeDirectory (path : Str)
  deriving DecidableEq

/-- Perform one call. -/
def FileSystem.step (fs : FileSystem) : Op → Result × FileSystem
  | Op.createDirectory name => fs.createDirectory name
  | Op.createFile name => fs.createFile name
  | Op.changeDirectory path => fs.changeDirectory path

/-- Perform the calls in order, whatever their outcomes (a caller that catches the exceptions),
and return the final state. -/
def FileSystem.run (fs : FileSystem) : List Op → FileSystem
  | [] => fs
  | op :: ops => FileSystem.run (fs.step op).2 ops

/-- The outcomes of the calls of `run`, in order. -/
def FileSystem.results (fs : FileSystem) : List Op → List Result
  | [] => []
  | op :: ops => (fs.step op).1 :: FileSystem.results (fs.step op).2 ops

/-- States that a sequence of calls produces from a freshly constructed `FileSystem`. -/
def FileSystem.Reachable (fs : FileSystem) : Prop :=
  ∃ ops : List Op, FileSystem.new.run ops = fs

/-- Heap `h'` extends heap `h`: every object of `h` is still at its address, with the same name,
parent and type, and every entry of its `m_children` is still there. -/
def Heap.Grows (h h' : Heap) : Prop :=
  ∀ (i : Nat) (n : Node), h[i]? = some n →
    ∃ n' : Node, h'[i]? = some n' ∧ n'.m_name = n.m_name ∧ n'.m_parent = n.m_parent ∧
      n'.m_nodeType = n.m_nodeType ∧
      ∀ k c, n.m_children.find k = some c → n'.m_children.find k = some c

/-- What a successful creation of `name` with type `kind` turns `fs` into, for the cursor
object `d` of `fs`: one object is allocated, at the first free address, it has the given name
and type, the cursor as parent and no children; the cursor object gains the one entry for it;
no other object, and neither pointer of the `FileSystem`, changes. -/
def FileSystem.CreatedIn (fs : FileSystem) (d : Node) (name : Str) (kind : NodeType)
    (fs' : FileSystem) : Prop :=
  fs'.root = fs.root ∧ fs'.current = fs.current ∧
  fs'.heap.length = fs.heap.length + 1 ∧
  fs'.heap[fs.heap.length]? =
    some { m_name := name, m_parent := some fs.current, m_nodeType := kind, m_children := [] } ∧
  fs'.heap[fs.current]? =
    some { d with m_children := d.m_children ++ [(name, fs.heap.length)] } ∧
  ∀ i, i ≠ fs.current → i < fs.heap.length → fs'.heap[i]? = fs.heap[i]?

/-- The node reached from the object at address `d` by following, name after name, the entries
of `m_children`; `none` when some name has no entry. -/
def Directory.descend (heap : Heap) : Nat → List Str → Option Nat
  | d, [] => some d
  | d, s :: ss =>
    match heap[d]? with
    | none => none
    | some n =>
      match n.m_children.find s with
      | none => none
      | some c => Directory.descend heap c ss

/-- Shape of the heaps the program builds.  The object at address 0 is named "/" and has no
parent.  Every entry `(k, c)` in the `m_children` of an object at address `d` belongs to a
directory, and `c` is the address of a later allocated object named `k` whose parent is `d`. -/
def Heap.WellFormed (heap : Heap) : Prop :=
  (∃ r : Node, heap[0]? = some r ∧ r.m_name = ['/'] ∧ r.m_parent = none) ∧
  ∀ (d : Nat) (nd : Node) (k : Str) (c : Nat),
    heap[d]? = some nd → nd.m_children.find k = some c →
      nd.m_nodeType = NodeType.DIRECTORY ∧ d < c ∧
        ∃ nc : Node, heap[c]? = some nc ∧ nc.m_name = k ∧ nc.m_parent = some d

/-- The calls that build the chain of directories `n1/n2/.../nk` below the cursor:
`createDirectory n1`, `changeDirectory n1`, ..., `createDirectory nk`. -/
def chainOps : List Str → List Op
  | [] => []
  | [n] => [Op.createDirectory n]
  | n :: m :: rest => Op.createDirectory n :: Op.changeDirectory n :: chainOps (m :: rest)

/-- Expression `m[k]` (`unordered_map::operator[]`) read as a value, with the map after the
access.  Under a present key the stored address is returned and the map is as before.  Under an
absent key `operator[]` inserts a null pointer; an insertion is reported as `none`. -/
def Children.subscript (m : Children) (k : Str) : Option (Children × Nat) :=
  match m.find k with
  | some v => some (m, v)
  | none => none

/-- One round of the loop of `Directory::findChild` (lines 78-85) with its accesses to
`m_children` spelled out: `count(value)` is tested first and `m_children[value]` is evaluated
only when it is non-zero.  The result carries the heap after the round; `none` means that
`operator[]` has inserted an entry. -/
def Directory.findChildStepTracked (heap : Heap) (temp : Nat) (value : Str) :
    Option (Except Thrown Nat × Heap) :=
  match heap[temp]? with
  | none => some (Except.error Thrown.notAValidPath, heap)
  | some n =>
    if n.m_nodeType = NodeType.DIRECTORY then
      if n.m_children.count value ≠ 0 then
        match n.m_children.subscript value with
        | none => none
        | some (m', child) => some (Except.ok child, heap.set temp { n with m_children := m' })
      else some (Except.ok temp, heap)
    else some (Except.error Thrown.notAValidPath, heap)

/-- The loop of `Directory::findChild` (lines 77-86), heap threaded through the rounds. -/
def Directory.findChildLoopTracked : Heap → Nat → List Str → Option (Except Thrown Nat × Heap)
  | heap, temp, [] => some (Except.ok temp, heap)
  | heap, temp, value :: values =>
    match Directory.findChildStepTracked heap temp value with
    | none => none
    | some (Except.error e, heap') => some (Except.error e, heap')
    | some (Except.ok temp', heap') => Directory.findChildLoopTracked heap' temp' values

/-- Method `Directory::findChild` (lines 70-89), heap threaded through. -/
def Directory.findChildTracked (heap : Heap) (this : Nat) (path : Str) :
    Option (Except Thrown Nat × Heap) :=
  if path = [] then some (Except.ok this, heap)
  else Directory.findChildLoopTracked heap this (getlines path)

/-- Method `FileSystem::changeDirectory` (lines 115-125) over `findChildTracked`: the heap after
the call is the heap `findChild` left. -/
def FileSystem.changeDirectoryTracked (fs : FileSystem) (path : Str) :
    Option (Result × FileSystem) :=
  if path = [] then some (Result.returned, fs)
  else if path.head? = some '/' then
    match Directory.findChildTracked fs.heap fs.root path.tail with
    | none => none
    | some (Except.ok n, heap') => some (Result.returned, { fs with heap := heap', current := n })
    | some (Except.error e, heap') => some (Result.threw e, { fs with heap := heap' })
  else
    match Directory.findChildTracked fs.heap fs.current path with
    | none => none
    | some (Except.ok n, heap') => some (Result.returned, { fs with heap := heap', current := n })
    | some (Except.error e, heap') => some (Result.threw e, { fs with heap := heap' })

/-- Links between the objects of the heaps the program builds.  Every entry `(k, c)` stored in
the `m_children` of the object at `d` is the address of an object named `k` whose parent is `d`;
and every object but the one at address 0 has a parent, allocated before it, whose `m_children`
hold it under its name. -/
def Heap.Linked (heap : Heap) : Prop :=
  (∀ (d : Nat) (nd : Node) (k : Str) (c : Nat), heap[d]? = some nd → (k, c) ∈ nd.m_children →
    ∃ nc : Node, heap[c]? = some nc ∧ nc.m_name = k ∧ nc.m_parent = some d) ∧
  ∀ (i : Nat) (n : Node), heap[i]? = some n → i ≠ 0 →
    ∃ (p : Nat) (np : Node), n.m_parent = some p ∧ p < i ∧ heap[p]? = some np ∧
      np.m_children.find n.m_name = some i

/-- The object `k` steps up the parent chain (`getParent`) from the object at address `i`;
`none` when the chain ends before. -/
def Node.ancestor (heap : Heap) : Nat → Nat → Option Nat
  | 0, i => some i
  | k + 1, i =>
    match heap[i]? with
    | none => none
    | some n =>
      match n.m_parent with
      | none => none
      | some p => Node.ancestor heap k p

/-- The tree property of a state.  The object at `root` is named "/" and has no parent.  Every
entry `(k, c)` in the `m_children` of an object at `D` is the address of an object named `k` with
parent `D`.  Every object is reached from `root` through names of children; it has a parent
unless it is the object at `root`; its parent chain arrives at `root` after at most as many steps
as its address; and `printWorkingDirectory` returns a string on it. -/
def FileSystem.TreeWellFormed (fs : FileSystem) : Prop :=
  (∃ r : Node, fs.heap[fs.root]? = some r ∧ r.m_name = ['/'] ∧ r.m_parent = none) ∧
  (∀ (D : Nat) (nd : Node) (k : Str) (c : Nat), fs.heap[D]? = some nd →
    (k, c) ∈ nd.m_children →
    ∃ nc : Node, fs.heap[c]? = some nc ∧ nc.m_name = k ∧ nc.m_parent = some D) ∧
  ∀ (i : Nat) (n : Node), fs.heap[i]? = some n →
    (∃ names : List Str, Directory.descend fs.heap fs.root names = some i) ∧
    (n.m_parent = none → i = fs.root) ∧
    (∃ k : Nat, k ≤ i ∧ Node.ancestor fs.heap k i = some fs.root) ∧
    ∃ pwd : Str, Directory.printWorkingDirectory fs.heap i = some pwd

/-- The walk over the segments of a path, in the words of the specification: starting on the
object at `pos`, each segment steps into the child it names when there is one and stays in place
otherwise.  The result tells whether some segment is read while the walk stands on a node of
type `FILE`. -/
def Directory.walkReadsOnFile (heap : Heap) : Nat → List Str → Bool
  | _, [] => false
  | pos, s :: ss =>
    match heap[pos]? with
    | none => false
    | some n =>
      if n.m_nodeType = NodeType.FILE then true
      else
        match n.m_children.find s with
        | some c => Directory.walkReadsOnFile heap c ss
        | none => Directory.walkReadsOnFile heap pos ss

/-- The cursor is the object at address 0 or an object whose name has no '/'. -/
def FileSystem.CursorSlashFree (fs : FileSystem) : Prop :=
  fs.current = 0 ∨ ∃ n : Node, fs.heap[fs.current]? = some n ∧ '/' ∉ n.m_name

/-- The name a call creates, if it creates one, is non-empty and has no '/'. -/
def Op.ValidName : Op → Prop
  | Op.createDirectory name => name ≠ [] ∧ '/' ∉ name
  | Op.createFile name => name ≠ [] ∧ '/' ∉ name
  | Op.changeDirectory _ => True

/-- Every object but the one at address 0 has a non-empty name without '/'. -/
def Heap.NamesValid (heap : Heap) : Prop :=
  ∀ (i : Nat) (n : Node), heap[i]? = some n → i ≠ 0 → n.m_name ≠ [] ∧ '/' ∉ n.m_name

/-! ## The map of children -/

theorem Children.find_isSome_iff_mem (m : Children) (k : Str) :
    (∃ v, m.find k = some v) ↔ ∃ v, (k, v) ∈ m := by
  induction m with
  | nil => simp [Children.find]
  | cons e rest ih =>
    obtain ⟨k', v'⟩ := e
    by_cases hk : k' = k
    · subst hk
      simp [Children.find]
    · simp only [Children.find, hk, if_false, List.mem_cons, Prod.mk.injEq]
      rw [ih]
      constructor
      · rintro ⟨v, hv⟩
        exact ⟨v, Or.inr hv⟩
      · rintro ⟨v, hv | hv⟩
        · exact absurd hv.1.symm hk
        · exact ⟨v, hv⟩

theorem Children.find_eq_none_iff (m : Children) (k : Str) :
    m.find k = none ↔ ∀ v, (k, v) ∉ m := by
  have h := Children.find_isSome_iff_mem m k
  constructor
  · intro hn v hv
    obtain ⟨w, hw⟩ := h.mpr ⟨v, hv⟩
    rw [hn] at hw
    cases hw
  · intro hn
    cases hf : m.find k with
    | none => rfl
    | some v =>
      obtain ⟨w, hw⟩ := h.mp ⟨v, hf⟩
      exact absurd hw (hn w)

theorem Children.count_eq_zero_iff (m : Children) (k : Str) :
    m.count k = 0 ↔ m.find k = none := by
  unfold Children.count
  cases m.find k <;> simp

theorem Children.assign_of_find_none (m : Children) (k : Str) (v : Nat)
    (h : m.find k = none) : m.assign k v = m ++ [(k, v)] := by
  induction m with
  | nil => rfl
  | cons e rest ih =>
    obtain ⟨k', v'⟩ := e
    by_cases hk : k' = k
    · simp [Children.find, hk] at h
    · simp only [Children.find, hk, if_false] at h
      simp [Children.assign, hk, ih h]

theorem Children.find_append (m m' : Children) (k : Str) :
    (m ++ m').find k = match m.find k with
      | some v => some v
      | none => m'.find k := by
  induction m with
  | nil => simp [Children.find]
  | cons e rest ih =>
    obtain ⟨k', v'⟩ := e
    by_cases hk : k' = k
    · simp [Children.find, hk]
    · simp [Children.find, hk, ih]

theorem Children.find_append_of_some (m m' : Children) (k : Str) (v : Nat)
    (h : m.find k = some v) : (m ++ m').find k = some v := by
  rw [Children.find_append, h]

theorem Children.find_append_single (m : Children) (k : Str) (v : Nat)
    (h : m.find k = none) : (m ++ [(k, v)]).find k = some v := by
  rw [Children.find_append, h]
  simp [Children.find]

/-! ## `Directory::createNode` -/

theorem Directory.createNode_returned (heap : Heap) (this : Nat) (name : Str) (b : Bool)
    (d : Node) (hd : heap[this]? = some d) (ht : d.m_nodeType = NodeType.DIRECTORY)
    (hf : d.m_children.find name = none) :
    Directory.createNode heap this name b =
      (Result.returned,
        heap.set this { d with m_children := d.m_children ++ [(name, heap.length)] } ++
          [if b then Directory.mk name (some this) else File.mk name (some this)]) := by
  unfold Directory.createNode
  simp only [hd, ht, if_true]
  have hc : d.m_children.count name = 0 := (Children.count_eq_zero_iff _ _).mpr hf
  simp [hc, Children.assign_of_find_none _ _ _ hf]

theorem Directory.createNode_threw (heap : Heap) (this : Nat) (name : Str) (b : Bool)
    (d : Node) (hd : heap[this]? = some d) (ht : d.m_nodeType = NodeType.DIRECTORY)
    (c : Nat) (hf : d.m_children.find name = some c) :
    Directory.createNode heap this name b = (Result.threw Thrown.alreadyExists, heap) := by
  unfold Directory.createNode
  simp only [hd, ht, if_true]
  have hc : d.m_children.count name ≠ 0 := by
    rw [Ne, Children.count_eq_zero_iff, hf]
    simp
  simp [hc]

/-- Every outcome of `createNode` other than a normal return leaves the heap as it was. -/
theorem Directory.createNode_cases (heap : Heap) (this : Nat) (name : Str) (b : Bool) :
    (Directory.createNode heap this name b).2 = heap ∧
        (Directory.createNode heap this name b).1 ≠ Result.returned ∨
      ∃ d, heap[this]? = some d ∧ d.m_nodeType = NodeType.DIRECTORY ∧
        d.m_children.find name = none ∧
        Directory.createNode heap this name b =
          (Result.returned,
            heap.set this { d with m_children := d.m_children ++ [(name, heap.length)] } ++
              [if b then Directory.mk name (some this) else File.mk name (some this)]) := by
  cases hd : heap[this]? with
  | none => left; simp [Directory.createNode, hd]
  | some d =>
    by_cases ht : d.m_nodeType = NodeType.DIRECTORY
    · cases hf : d.m_children.find name with
      | none => right; exact ⟨d, rfl, ht, hf, Directory.createNode_returned heap this name b d hd ht hf⟩
      | some c =>
        left
        rw [Directory.createNode_threw heap this name b d hd ht c hf]
        simp
    · left; simp [Directory.createNode, hd, ht]

theorem Heap.Grows.refl (h : Heap) : Heap.Grows h h :=
  fun _ n hn => ⟨n, hn, rfl, rfl, rfl, fun _ _ hk => hk⟩

theorem Heap.Grows.trans {h1 h2 h3 : Heap} (h12 : Heap.Grows h1 h2) (h23 : Heap.Grows h2 h3) :
    Heap.Grows h1 h3 := by
  intro i n hn
  obtain ⟨n2, hn2, e1, e2, e3, e4⟩ := h12 i n hn
  obtain ⟨n3, hn3, f1, f2, f3, f4⟩ := h23 i n2 hn2
  exact ⟨n3, hn3, f1.trans e1, f2.trans e2, f3.trans e3, fun k c hk => f4 k c (e4 k c hk)⟩

/-- Reading the heap after an allocation that also rewrote the object at `this`. -/
theorem Heap.getElem?_set_append (heap : Heap) (this : Nat) (d' temp : Node) (i : Nat)
    (hthis : this < heap.length) :
    (heap.set this d' ++ [temp])[i]? =
      if i = this then some d' else if i = heap.length then some temp else heap[i]? := by
  by_cases hi : i < heap.length
  · rw [List.getElem?_append_left (by simpa using hi)]
    by_cases hit : i = this
    · subst hit
      simp [hi]
    · have hne : i ≠ heap.length := Nat.ne_of_lt hi
      rw [List.getElem?_set_ne (Ne.symm hit)]
      simp [hit, hne]
  · have hge : heap.length ≤ i := Nat.le_of_not_lt hi
    have hit : i ≠ this := fun e => hi (e ▸ hthis)
    rw [List.getElem?_append_right (by simpa using hge)]
    simp only [List.length_set, hit, if_false]
    by_cases hil : i = heap.length
    · subst hil
      simp
    · have : 0 < i - heap.length := by omega
      have hnone : heap[i]? = none := List.getElem?_eq_none hge
      simp [hil, hnone]
      omega

theorem Directory.createNode_grows (heap : Heap) (this : Nat) (name : Str) (b : Bool) :
    Heap.Grows heap (Directory.createNode heap this name b).2 := by
  rcases Directory.createNode_cases heap this name b with ⟨h, _⟩ | ⟨d, hd, _, hf, heq⟩
  · rw [h]
    exact Heap.Grows.refl heap
  · rw [heq]
    have hthis : this < heap.length := by
      by_contra hlt
      rw [List.getElem?_eq_none (Nat.le_of_not_lt hlt)] at hd
      cases hd
    intro i n hn
    have hi : i < heap.length := by
      by_contra hlt
      rw [List.getElem?_eq_none (Nat.le_of_not_lt hlt)] at hn
      cases hn
    simp only []
    rw [Heap.getElem?_set_append heap this _ _ i hthis]
    by_cases hit : i = this
    · subst hit
      rw [hd] at hn
      cases hn
      simp only [if_true]
      exact ⟨_, rfl, rfl, rfl, rfl, fun k c hk => Children.find_append_of_some _ _ k c hk⟩
    · simp only [hit, if_false, Nat.ne_of_lt hi]
      exact ⟨n, hn, rfl, rfl, rfl, fun _ _ hk => hk⟩

/-! ## Calls never remove anything -/

theorem FileSystem.step_heap_grows (fs : FileSystem) (op : Op) :
    Heap.Grows fs.heap (fs.step op).2.heap := by
  cases op with
  | createDirectory name => exact Directory.createNode_grows fs.heap fs.current name true
  | createFile name => exact Directory.createNode_grows fs.heap fs.current name false
  | changeDirectory path =>
    simp only [FileSystem.step, FileSystem.changeDirectory]
    split
    · exact Heap.Grows.refl _
    · split
      · split <;> exact Heap.Grows.refl _
      · split <;> exact Heap.Grows.refl _

theorem FileSystem.run_heap_grows (ops : List Op) :
    ∀ fs : FileSystem, Heap.Grows fs.heap (fs.run ops).heap := by
  induction ops with
  | nil => intro fs; exact Heap.Grows.refl _
  | cons op ops ih =>
    intro fs
    exact Heap.Grows.trans (FileSystem.step_heap_grows fs op) (ih _)

/-! ## `Directory::findChild` -/

theorem Directory.findChildStep_error (heap : Heap) (temp : Nat) (value : Str) (e : Thrown)
    (h : Directory.findChildStep heap temp value = Except.error e) :
    e = Thrown.notAValidPath := by
  unfold Directory.findChildStep at h
  split at h
  · cases h; rfl
  · split at h
    · split at h <;> cases h
    · cases h; rfl

theorem Directory.findChildLoop_error (heap : Heap) (values : List Str) :
    ∀ (temp : Nat) (e : Thrown),
      Directory.findChildLoop heap temp values = Except.error e → e = Thrown.notAValidPath := by
  induction values with
  | nil => intro temp e h; cases h
  | cons value values ih =>
    intro temp e h
    simp only [Directory.findChildLoop] at h
    cases hs : Directory.findChildStep heap temp value with
    | error e' =>
      rw [hs] at h
      cases h
      exact Directory.findChildStep_error heap temp value _ hs
    | ok temp' =>
      rw [hs] at h
      exact ih temp' e h

theorem Directory.findChild_error (heap : Heap) (this : Nat) (path : Str) (e : Thrown)
    (h : Directory.findChild heap this path = Except.error e) : e = Thrown.notAValidPath := by
  unfold Directory.findChild at h
  split at h
  · cases h
  · exact Directory.findChildLoop_error heap _ this e h

/-- A failed `changeDirectory` returns the `FileSystem` it was given. -/
theorem FileSystem.changeDirectory_not_returned (fs : FileSystem) (path : Str)
    (h : (fs.changeDirectory path).1 ≠ Result.returned) :
    (fs.changeDirectory path).2 = fs ∧
      (fs.changeDirectory path).1 = Result.threw Thrown.notAValidPath := by
  unfold FileSystem.changeDirectory at h ⊢
  split at h
  · exact absurd rfl h
  · rename_i hp
    simp only [hp, if_false]
    split at h
    · rename_i hs
      simp only [hs, if_true]
      cases hf : Directory.findChild fs.heap fs.root path.tail with
      | ok n => rw [hf] at h; exact absurd rfl h
      | error e =>
        rw [Directory.findChild_error _ _ _ e hf]
        exact ⟨rfl, rfl⟩
    · rename_i hs
      simp only [hs, if_false]
      cases hf : Directory.findChild fs.heap fs.current path with
      | ok n => rw [hf] at h; exact absurd rfl h
      | error e =>
        rw [Directory.findChild_error _ _ _ e hf]
        exact ⟨rfl, rfl⟩

/-! ## Creation: uniqueness, success, failure -/

/-- Claim C1 (uniqueness).  Once `createNode` has stored a node named `n` in the object at
address `D`, then after any sequence of `createDirectory`, `createFile` and `changeDirectory`
calls, with any arguments and outcomes and wherever `root` and `current` point, a further
`createNode` of the name `n` on `D`, of either type, throws "File/Directory already exists."
and leaves the heap as it is. -/
theorem createNode_twice_alreadyExists (heap : Heap) (D : Nat) (n : Str) (k1 k2 : Bool)
    (root current : Nat) (ops : List Op)
    (h : (Directory.createNode heap D n k1).1 = Result.returned) :
    Directory.createNode
        (FileSystem.run
          { heap := (Directory.createNode heap D n k1).2, root := root, current := current }
          ops).heap D n k2 =
      (Result.threw Thrown.alreadyExists,
        (FileSystem.run
          { heap := (Directory.createNode heap D n k1).2, root := root, current := current }
          ops).heap) := by
  rcases Directory.createNode_cases heap D n k1 with ⟨_, hne⟩ | ⟨d, hd, ht, hf, heq⟩
  · exact absurd h hne
  · have hD : D < heap.length := by
      by_contra hlt
      rw [List.getElem?_eq_none (Nat.le_of_not_lt hlt)] at hd
      cases hd
    have h1 : (Directory.createNode heap D n k1).2[D]? =
        some { d with m_children := d.m_children ++ [(n, heap.length)] } := by
      rw [heq]
      simp only []
      rw [Heap.getElem?_set_append heap D _ _ D hD]
      simp
    obtain ⟨d', hd', _, _, ht', hch⟩ :=
      FileSystem.run_heap_grows ops
        { heap := (Directory.createNode heap D n k1).2, root := root, current := current } D _ h1
    exact Directory.createNode_threw _ D n k2 d' hd' (ht'.trans ht) heap.length
      (hch n heap.length (Children.find_append_single _ _ _ hf))

/-- Witness for `createNode_twice_alreadyExists`: "a" is created as a directory in the root,
then a file "b" is created, entered and a creation through it attempted; creating a file "a"
in the root then throws. -/
theorem createNode_twice_alreadyExists_witness :
    (Directory.createNode FileSystem.new.heap 0 ['a'] true).1 = Result.returned ∧
    Directory.createNode
        (FileSystem.run
          { heap := (Directory.createNode FileSystem.new.heap 0 ['a'] true).2,
            root := 0, current := 0 }
          [Op.createFile ['b'], Op.changeDirectory ['b'], Op.createDirectory ['a']]).heap
        0 ['a'] false =
      (Result.threw Thrown.alreadyExists,
        (FileSystem.run
          { heap := (Directory.createNode FileSystem.new.heap 0 ['a'] true).2,
            root := 0, current := 0 }
          [Op.createFile ['b'], Op.changeDirectory ['b'], Op.createDirectory ['a']]).heap) :=
  ⟨by decide, createNode_twice_alreadyExists FileSystem.new.heap 0 ['a'] true false 0 0
    [Op.createFile ['b'], Op.changeDirectory ['b'], Op.createDirectory ['a']] (by decide)⟩

theorem FileSystem.createdIn_of_createNode (fs : FileSystem) (d : Node) (n : Str) (b : Bool)
    (hd : fs.heap[fs.current]? = some d) (ht : d.m_nodeType = NodeType.DIRECTORY)
    (hf : d.m_children.find n = none) :
    (Directory.createNode fs.heap fs.current n b).1 = Result.returned ∧
      FileSystem.CreatedIn fs d n (if b then NodeType.DIRECTORY else NodeType.FILE)
        { fs with heap := (Directory.createNode fs.heap fs.current n b).2 } := by
  have hc : fs.current < fs.heap.length := by
    by_contra hlt
    rw [List.getElem?_eq_none (Nat.le_of_not_lt hlt)] at hd
    cases hd
  rw [Directory.createNode_returned fs.heap fs.current n b d hd ht hf]
  refine ⟨rfl, rfl, rfl, by simp, ?_, ?_, ?_⟩
  · simp only []
    rw [Heap.getElem?_set_append fs.heap fs.current _ _ _ hc]
    have : fs.heap.length ≠ fs.current := Nat.ne_of_gt hc
    cases b <;> simp [this, Directory.mk, File.mk]
  · simp only []
    rw [Heap.getElem?_set_append fs.heap fs.current _ _ _ hc]
    simp
  · intro i hi hil
    simp only []
    rw [Heap.getElem?_set_append fs.heap fs.current _ _ _ hc]
    simp [hi, Nat.ne_of_lt hil]

/-- Claim C2 (successful creation).  When `current` points at a directory `d` that has no entry
under the name `n`, both `createDirectory n` and `createFile n` return normally, and the state
afterwards is the old one with one new object (named `n`, of the requested type, with the
cursor as parent and no children) and with exactly the one entry for it appended to the
children of `d`; every other object, `root` and `current` are unchanged. -/
theorem create_succeeds_and_adds_one_child (fs : FileSystem) (d : Node) (n : Str)
    (hd : fs.heap[fs.current]? = some d) (ht : d.m_nodeType = NodeType.DIRECTORY)
    (hn : ∀ v, (n, v) ∉ d.m_children) :
    ((fs.createDirectory n).1 = Result.returned ∧
      FileSystem.CreatedIn fs d n NodeType.DIRECTORY (fs.createDirectory n).2) ∧
    ((fs.createFile n).1 = Result.returned ∧
      FileSystem.CreatedIn fs d n NodeType.FILE (fs.createFile n).2) := by
  have hf : d.m_children.find n = none := (Children.find_eq_none_iff _ _).mpr hn
  exact ⟨FileSystem.createdIn_of_createNode fs d n true hd ht hf,
    FileSystem.createdIn_of_createNode fs d n false hd ht hf⟩

/-- Witness for `create_succeeds_and_adds_one_child`: the name "a" in a fresh `FileSystem`. -/
theorem create_succeeds_and_adds_one_child_witness :
    ((FileSystem.new.createDirectory ['a']).1 = Result.returned ∧
      FileSystem.CreatedIn FileSystem.new (Directory.mk ['/'] none) ['a'] NodeType.DIRECTORY
        (FileSystem.new.createDirectory ['a']).2) ∧
    ((FileSystem.new.createFile ['a']).1 = Result.returned ∧
      FileSystem.CreatedIn FileSystem.new (Directory.mk ['/'] none) ['a'] NodeType.FILE
        (FileSystem.new.createFile ['a']).2) :=
  create_succeeds_and_adds_one_child FileSystem.new (Directory.mk ['/'] none) ['a'] rfl rfl
    (by intro v hv; cases hv)

/-- Claim C3 (failed creation is atomic).  When `current` points at a directory `d` that has an
entry under the name `n`, `createDirectory n` and `createFile n` both throw
"File/Directory already exists." and return the very state they were given: the heap (so the
entry under `n`, whatever its type, and every other object), `root` and `current`. -/
theorem create_existing_throws_unchanged (fs : FileSystem) (d : Node) (n : Str)
    (hd : fs.heap[fs.current]? = some d) (ht : d.m_nodeType = NodeType.DIRECTORY)
    (hn : ∃ v, (n, v) ∈ d.m_children) :
    fs.createDirectory n = (Result.threw Thrown.alreadyExists, fs) ∧
      fs.createFile n = (Result.threw Thrown.alreadyExists, fs) := by
  obtain ⟨c, hc⟩ := (Children.find_isSome_iff_mem _ _).mpr hn
  constructor
  · unfold FileSystem.createDirectory
    rw [Directory.createNode_threw fs.heap fs.current n true d hd ht c hc]
  · unfold FileSystem.createFile
    rw [Directory.createNode_threw fs.heap fs.current n false d hd ht c hc]

/-- Witness for `create_existing_throws_unchanged`: the root holds a file "a"; creating a
directory or a file "a" again throws and changes nothing. -/
theorem create_existing_throws_unchanged_witness :
    (FileSystem.new.createFile ['a']).2.createDirectory ['a'] =
        (Result.threw Thrown.alreadyExists, (FileSystem.new.createFile ['a']).2) ∧
      (FileSystem.new.createFile ['a']).2.createFile ['a'] =
        (Result.threw Thrown.alreadyExists, (FileSystem.new.createFile ['a']).2) :=
  create_existing_throws_unchanged (FileSystem.new.createFile ['a']).2
    { m_name := ['/'], m_parent := none, m_nodeType := NodeType.DIRECTORY,
      m_children := [(['a'], 1)] } ['a'] (by decide) rfl ⟨1, by decide⟩

/-! ## The cursor -/

/-- Claim C5 (cursor safety).  When `changeDirectory path` does not return normally, the
`FileSystem` afterwards is the one before the call: `current` is the same address and
`printWorkingDirectory` gives the same result. -/
theorem changeDirectory_failure_keeps_cursor (fs : FileSystem) (path : Str)
    (h : (fs.changeDirectory path).1 ≠ Result.returned) :
    (fs.changeDirectory path).2.current = fs.current ∧
      (fs.changeDirectory path).2.printWorkingDirectory = fs.printWorkingDirectory ∧
      (fs.changeDirectory path).2 = fs := by
  have h2 := (FileSystem.changeDirectory_not_returned fs path h).1
  rw [h2]
  exact ⟨rfl, rfl, rfl⟩

/-- Witness for `changeDirectory_failure_keeps_cursor`: the root holds a file "f", and the
path "f/x" reads the value "x" while standing on that file. -/
theorem changeDirectory_failure_keeps_cursor_witness :
    ((FileSystem.new.createFile ['f']).2.changeDirectory ['f', '/', 'x']).1 ≠ Result.returned ∧
    (((FileSystem.new.createFile ['f']).2.changeDirectory ['f', '/', 'x']).2.current =
        (FileSystem.new.createFile ['f']).2.current ∧
      ((FileSystem.new.createFile ['f']).2.changeDirectory
          ['f', '/', 'x']).2.printWorkingDirectory =
        (FileSystem.new.createFile ['f']).2.printWorkingDirectory ∧
      ((FileSystem.new.createFile ['f']).2.changeDirectory ['f', '/', 'x']).2 =
        (FileSystem.new.createFile ['f']).2) :=
  ⟨by decide,
    changeDirectory_failure_keeps_cursor (FileSystem.new.createFile ['f']).2 ['f', '/', 'x']
      (by decide)⟩

/-- Claim C6, the code at the failing input.  After `createFile "f"` in a fresh `FileSystem`
the object at address 1 is the file "f"; `changeDirectory "f"` and `changeDirectory "/f"`
both return normally and set `current` to that file. -/
theorem changeDirectory_into_file_returns :
    (FileSystem.new.createFile ['f']).2.heap[1]? = some (File.mk ['f'] (some 0)) ∧
    (FileSystem.new.createFile ['f']).2.changeDirectory ['f'] =
      (Result.returned, { (FileSystem.new.createFile ['f']).2 with current := 1 }) ∧
    (FileSystem.new.createFile ['f']).2.changeDirectory ['/', 'f'] =
      (Result.returned, { (FileSystem.new.createFile ['f']).2 with current := 1 }) := by
  decide

/-- Claim C7, the code at the failing inputs.  In a fresh `FileSystem`, `changeDirectory "nope"`
returns normally (the cursor stays on the root).  After `createDirectory "hello"`,
`changeDirectory "hello/nope"` returns normally too and moves `current` to the directory
"hello" at address 1. -/
theorem changeDirectory_missing_segment_returns :
    FileSystem.new.changeDirectory ['n', 'o', 'p', 'e'] = (Result.returned, FileSystem.new) ∧
    (FileSystem.new.createDirectory ['h', 'e', 'l', 'l', 'o']).2.changeDirectory
        ['h', 'e', 'l', 'l', 'o', '/', 'n', 'o', 'p', 'e'] =
      (Result.returned,
        { (FileSystem.new.createDirectory ['h', 'e', 'l', 'l', 'o']).2 with current := 1 }) := by
  decide

/-- Claim C8, the code at the failing input.  The calls `createFile "f"`, `changeDirectory "f"`
on a fresh `FileSystem` reach a state whose `current` is the address of a `File`. -/
theorem reachable_cursor_on_file :
    FileSystem.Reachable (FileSystem.new.run [Op.createFile ['f'], Op.changeDirectory ['f']]) ∧
    ((FileSystem.new.run [Op.createFile ['f'], Op.changeDirectory ['f']]).heap[
        (FileSystem.new.run [Op.createFile ['f'], Op.changeDirectory ['f']]).current]?).map
      Node.m_nodeType = some NodeType.FILE :=
  ⟨⟨_, rfl⟩, by decide⟩

/-- Claim C9 (root identity).  In a freshly constructed `FileSystem`, `current` is `root`, the
object there is a directory named "/" with no parent and no children, and
`printWorkingDirectory` returns "/". -/
theorem new_root_identity :
    FileSystem.new.current = FileSystem.new.root ∧
    FileSystem.new.heap[FileSystem.new.root]? =
      some { m_name := ['/'], m_parent := none, m_nodeType := NodeType.DIRECTORY,
             m_children := [] } ∧
    FileSystem.new.printWorkingDirectory = some ['/'] := by
  decide

/-! ## Well-formed heaps -/

theorem Heap.lt_length_of_getElem? (heap : Heap) (i : Nat) (n : Node)
    (h : heap[i]? = some n) : i < heap.length := by
  by_contra hlt
  rw [List.getElem?_eq_none (Nat.le_of_not_lt hlt)] at h
  cases h

theorem Heap.wellFormed_new : Heap.WellFormed FileSystem.new.heap := by
  refine ⟨⟨Directory.mk ['/'] none, rfl, rfl, rfl⟩, ?_⟩
  intro d nd k c hd hk
  have hlt := Heap.lt_length_of_getElem? _ d nd hd
  have hd0 : d = 0 := by
    simp [FileSystem.new] at hlt
    exact hlt
  subst hd0
  simp [FileSystem.new, Directory.mk] at hd
  subst hd
  simp [Children.find] at hk

theorem Directory.createNode_wellFormed (heap : Heap) (this : Nat) (name : Str) (b : Bool)
    (hwf : Heap.WellFormed heap) :
    Heap.WellFormed (Directory.createNode heap this name b).2 := by
  rcases Directory.createNode_cases heap this name b with ⟨h, _⟩ | ⟨d, hd, ht, hf, heq⟩
  · rw [h]
    exact hwf
  · have hgrow := Directory.createNode_grows heap this name b
    rw [heq] at hgrow ⊢
    simp only [] at hgrow ⊢
    have hthis := Heap.lt_length_of_getElem? heap this d hd
    obtain ⟨⟨r, hr, hrn, hrp⟩, hch⟩ := hwf
    constructor
    · obtain ⟨r', hr', e1, e2, _, _⟩ := hgrow 0 r hr
      exact ⟨r', hr', e1.trans hrn, e2.trans hrp⟩
    · intro i ni k c hi hk
      rw [Heap.getElem?_set_append heap this _ _ i hthis] at hi
      by_cases hit : i = this
      · subst hit
        simp only [if_true, Option.some.injEq] at hi
        subst hi
        simp only [] at hk ⊢
        refine ⟨ht, ?_⟩
        rw [Children.find_append] at hk
        cases hfk : d.m_children.find k with
        | some c' =>
          rw [hfk] at hk
          simp only [Option.some.injEq] at hk
          subst hk
          obtain ⟨_, hlt, nc, hnc, hname, hpar⟩ := hch i d k c' hd hfk
          obtain ⟨nc', hnc', e1, e2, _, _⟩ := hgrow c' nc hnc
          exact ⟨hlt, nc', hnc', e1.trans hname, e2.trans hpar⟩
        | none =>
          rw [hfk] at hk
          simp only [Children.find] at hk
          split at hk
          · rename_i hkn
            simp only [Option.some.injEq] at hk
            subst hk
            subst hkn
            refine ⟨hthis, ?_⟩
            rw [Heap.getElem?_set_append heap i _ _ _ hthis]
            have hne : heap.length ≠ i := Nat.ne_of_gt hthis
            simp only [hne, if_false, if_true]
            cases b <;> exact ⟨_, rfl, rfl, rfl⟩
          · cases hk
      · simp only [hit, if_false] at hi
        by_cases hil : i = heap.length
        · simp only [hil, if_true, Option.some.injEq] at hi
          subst hi
          cases b <;> simp [Directory.mk, File.mk, Children.find] at hk
        · simp only [hil, if_false] at hi
          obtain ⟨hty, hlt, nc, hnc, hname, hpar⟩ := hch i ni k c hi hk
          obtain ⟨nc', hnc', e1, e2, _, _⟩ := hgrow c nc hnc
          exact ⟨hty, hlt, nc', hnc', e1.trans hname, e2.trans hpar⟩

theorem FileSystem.changeDirectory_heap_root (fs : FileSystem) (path : Str) :
    (fs.changeDirectory path).2.heap = fs.heap ∧ (fs.changeDirectory path).2.root = fs.root := by
  unfold FileSystem.changeDirectory
  split
  · exact ⟨rfl, rfl⟩
  · split
    · split <;> exact ⟨rfl, rfl⟩
    · split <;> exact ⟨rfl, rfl⟩

theorem FileSystem.step_wellFormed (fs : FileSystem) (op : Op)
    (h : fs.root = 0 ∧ Heap.WellFormed fs.heap) :
    (fs.step op).2.root = 0 ∧ Heap.WellFormed (fs.step op).2.heap := by
  cases op with
  | createDirectory name =>
    exact ⟨h.1, Directory.createNode_wellFormed fs.heap fs.current name true h.2⟩
  | createFile name =>
    exact ⟨h.1, Directory.createNode_wellFormed fs.heap fs.current name false h.2⟩
  | changeDirectory path =>
    have hc := FileSystem.changeDirectory_heap_root fs path
    simp only [FileSystem.step]
    rw [hc.1, hc.2]
    exact h

theorem FileSystem.run_wellFormed (ops : List Op) :
    ∀ fs : FileSystem, (fs.root = 0 ∧ Heap.WellFormed fs.heap) →
      (fs.run ops).root = 0 ∧ Heap.WellFormed (fs.run ops).heap := by
  induction ops with
  | nil => intro fs h; exact h
  | cons op ops ih =>
    intro fs h
    exact ih _ (FileSystem.step_wellFormed fs op h)

theorem FileSystem.Reachable.wellFormed {fs : FileSystem} (h : FileSystem.Reachable fs) :
    fs.root = 0 ∧ Heap.WellFormed fs.heap := by
  obtain ⟨ops, rfl⟩ := h
  exact FileSystem.run_wellFormed ops FileSystem.new ⟨rfl, Heap.wellFormed_new⟩

/-! ## `Directory::printWorkingDirectory` -/

theorem Directory.descend_append_single (heap : Heap) (names : List Str) (s : Str) :
    ∀ r d : Nat, Directory.descend heap r (names ++ [s]) = some d →
      ∃ (p : Nat) (np : Node), Directory.descend heap r names = some p ∧
        heap[p]? = some np ∧ np.m_children.find s = some d := by
  induction names with
  | nil =>
    intro r d h
    simp only [List.nil_append, Directory.descend] at h
    cases hr : heap[r]? with
    | none => simp [hr] at h
    | some nr =>
      rw [hr] at h
      cases hf : nr.m_children.find s with
      | none => simp [hf] at h
      | some c =>
        simp only [hf, Option.some.injEq] at h
        subst h
        exact ⟨r, nr, rfl, hr, hf⟩
  | cons n names ih =>
    intro r d h
    simp only [List.cons_append, Directory.descend] at h ⊢
    cases hr : heap[r]? with
    | none => simp [hr] at h
    | some nr =>
      rw [hr] at h
      cases hf : nr.m_children.find n with
      | none => simp [hf] at h
      | some c =>
        simp only [hf] at h ⊢
        exact ih c d h

theorem List.intercalate_cons_of_ne_nil (sep a : Str) (l : List Str) (h : l ≠ []) :
    List.intercalate sep (a :: l) = a ++ sep ++ List.intercalate sep l := by
  cases l with
  | nil => exact absurd rfl h
  | cons b l => simp [List.intercalate, List.intersperse]

theorem List.intercalate_append_pair (sep x y : Str) (l : List Str) :
    List.intercalate sep (l ++ [x ++ sep ++ y]) = List.intercalate sep (l ++ [x, y]) := by
  induction l with
  | nil => simp [List.intercalate, List.intersperse]
  | cons a l ih =>
    rw [List.cons_append, List.cons_append,
      List.intercalate_cons_of_ne_nil sep a _ (by simp),
      List.intercalate_cons_of_ne_nil sep a _ (by simp), ih]

/-- The loop of `printWorkingDirectory`, started on a node that is reached from the root
through `names`, prepends the rendering of that node to what it was given. -/
theorem Directory.pwdLoop_descend (heap : Heap) (hwf : Heap.WellFormed heap)
    (names : List Str) :
    ∀ (d fuel : Nat) (acc : Str), Directory.descend heap 0 names = some d → d < fuel →
      Directory.pwdLoop heap fuel (some d) acc =
        some ('/' :: List.intercalate ['/'] (names ++ [acc])) := by
  induction names using List.reverseRecOn with
  | nil =>
    intro d fuel acc hd hlt
    simp only [Directory.descend, Option.some.injEq] at hd
    subst hd
    obtain ⟨⟨r, hr, hrn, hrp⟩, _⟩ := hwf
    obtain ⟨f, rfl⟩ : ∃ f, fuel = f + 1 := ⟨fuel - 1, by omega⟩
    simp [Directory.pwdLoop, hr, hrn, hrp, List.intercalate]
  | append_singleton names s ih =>
    intro d fuel acc hd hlt
    obtain ⟨p, np, hp, hnp, hfind⟩ := Directory.descend_append_single heap names s 0 d hd
    obtain ⟨_, hpd, nd, hnd, hname, hpar⟩ := hwf.2 p np s d hnp hfind
    obtain ⟨f, rfl⟩ : ∃ f, fuel = f + 1 := ⟨fuel - 1, by omega⟩
    simp only [Directory.pwdLoop, hnd, hname, hpar]
    rw [ih p f _ hp (by omega)]
    have : (if some p = none then ([] : Str) else ['/']) = ['/'] := by simp
    rw [this, List.intercalate_append_pair, List.append_assoc]
    rfl

theorem Directory.printWorkingDirectory_descend (heap : Heap) (hwf : Heap.WellFormed heap)
    (names : List Str) (d : Nat) (hd : Directory.descend heap 0 names = some d) :
    Directory.printWorkingDirectory heap d = some ('/' :: List.intercalate ['/'] names) := by
  induction names using List.reverseRecOn with
  | nil =>
    simp only [Directory.descend, Option.some.injEq] at hd
    subst hd
    obtain ⟨⟨r, hr, hrn, hrp⟩, _⟩ := hwf
    simp [Directory.printWorkingDirectory, hr, hrn, hrp, Directory.pwdLoop, List.intercalate]
  | append_singleton names s _ =>
    obtain ⟨p, np, hp, hnp, hfind⟩ := Directory.descend_append_single heap names s 0 d hd
    obtain ⟨_, hpd, nd, hnd, hname, hpar⟩ := hwf.2 p np s d hnp hfind
    have hlt := Heap.lt_length_of_getElem? heap d nd hnd
    simp only [Directory.printWorkingDirectory, hnd, hname, hpar]
    exact Directory.pwdLoop_descend heap hwf names p heap.length s hp (by omega)

/-- Claim C10 (canonical path rendering).  In every state reached from a fresh `FileSystem`,
for the node at address `d` (a directory, or any node) reached from `root` through the child
names `names`,
`Directory::printWorkingDirectory` returns "/" followed by the names joined with "/" (just
"/" for the root itself, where `names` is empty), and so does
`FileSystem::printWorkingDirectory` when `current` is `d`. -/
theorem printWorkingDirectory_canonical (fs : FileSystem) (hr : FileSystem.Reachable fs)
    (names : List Str) (d : Nat)
    (hd : Directory.descend fs.heap fs.root names = some d) :
    Directory.printWorkingDirectory fs.heap d = some ('/' :: List.intercalate ['/'] names) ∧
      (fs.current = d →
        fs.printWorkingDirectory = some ('/' :: List.intercalate ['/'] names)) := by
  obtain ⟨hroot, hwf⟩ := hr.wellFormed
  rw [hroot] at hd
  have h := Directory.printWorkingDirectory_descend fs.heap hwf names d hd
  refine ⟨h, fun hc => ?_⟩
  unfold FileSystem.printWorkingDirectory
  rw [hc]
  exact h

/-- Witness for `printWorkingDirectory_canonical`: the directory "/a/b" after
`createDirectory "a"`, `changeDirectory "a"`, `createDirectory "b"`, `changeDirectory "b"`. -/
theorem printWorkingDirectory_canonical_witness :
    Directory.printWorkingDirectory
        (FileSystem.new.run [Op.createDirectory ['a'], Op.changeDirectory ['a'],
          Op.createDirectory ['b'], Op.changeDirectory ['b']]).heap 2 =
        some ['/', 'a', '/', 'b'] ∧
      ((FileSystem.new.run [Op.createDirectory ['a'], Op.changeDirectory ['a'],
          Op.createDirectory ['b'], Op.changeDirectory ['b']]).current = 2 →
        (FileSystem.new.run [Op.createDirectory ['a'], Op.changeDirectory ['a'],
          Op.createDirectory ['b'], Op.changeDirectory ['b']]).printWorkingDirectory =
          some ['/', 'a', '/', 'b']) :=
  printWorkingDirectory_canonical
    (FileSystem.new.run [Op.createDirectory ['a'], Op.changeDirectory ['a'],
      Op.createDirectory ['b'], Op.changeDirectory ['b']])
    ⟨_, rfl⟩ [['a'], ['b']] 2 (by decide)

/-! ## Resolving the path of a chain of directories -/

theorem getlines_of_no_slash (n : Str) (hne : n ≠ []) (hs : '/' ∉ n) : getlines n = [n] := by
  induction n with
  | nil => exact absurd rfl hne
  | cons c cs ih =>
    have hc : c ≠ '/' := fun e => hs (e ▸ List.mem_cons_self _ _)
    have hcs : '/' ∉ cs := fun h => hs (List.mem_cons_of_mem _ h)
    cases cs with
    | nil => simp [getlines, hc]
    | cons c' cs' =>
      have := ih (by simp) hcs
      simp only [getlines, hc, if_false] at this ⊢
      rw [this]

theorem getlines_append_slash (n rest : Str) (hs : '/' ∉ n) :
    getlines (n ++ '/' :: rest) = n :: getlines rest := by
  induction n with
  | nil => simp [getlines]
  | cons c cs ih =>
    have hc : c ≠ '/' := fun e => hs (e ▸ List.mem_cons_self _ _)
    have hcs : '/' ∉ cs := fun h => hs (List.mem_cons_of_mem _ h)
    have h := ih hcs
    simp only [List.cons_append, getlines, hc, if_false]
    show (match getlines (cs ++ '/' :: rest) with
      | [] => [[c]]
      | v :: vs => (c :: v) :: vs) = _
    rw [h]

theorem getlines_intercalate (names : List Str) (hne : names ≠ [])
    (hnames : ∀ n ∈ names, n ≠ [] ∧ '/' ∉ n) :
    getlines (List.intercalate ['/'] names) = names := by
  induction names with
  | nil => exact absurd rfl hne
  | cons n rest ih =>
    have hn := hnames n (List.mem_cons_self _ _)
    cases rest with
    | nil =>
      have hone : List.intercalate ['/'] [n] = n := by simp [List.intercalate]
      rw [hone]
      exact getlines_of_no_slash n hn.1 hn.2
    | cons m rest =>
      rw [List.intercalate_cons_of_ne_nil _ _ _ (by simp), List.append_assoc]
      have hrest := ih (by simp) (fun x hx => hnames x (List.mem_cons_of_mem _ hx))
      show getlines (n ++ '/' :: List.intercalate ['/'] (m :: rest)) = _
      rw [getlines_append_slash n _ hn.2, hrest]

theorem Directory.findChildLoop_descend (heap : Heap) (hwf : Heap.WellFormed heap)
    (names : List Str) :
    ∀ r d : Nat, Directory.descend heap r names = some d →
      Directory.findChildLoop heap r names = Except.ok d := by
  induction names with
  | nil =>
    intro r d h
    simp only [Directory.descend, Option.some.injEq] at h
    subst h
    rfl
  | cons n names ih =>
    intro r d h
    simp only [Directory.descend] at h
    cases hr : heap[r]? with
    | none => simp [hr] at h
    | some nr =>
      rw [hr] at h
      cases hf : nr.m_children.find n with
      | none => simp [hf] at h
      | some c =>
        simp only [hf] at h
        have hty := (hwf.2 r nr n c hr hf).1
        simp only [Directory.findChildLoop, Directory.findChildStep, hr, hty, hf, if_true]
        exact ih c d h

theorem Directory.descend_grows (h h' : Heap) (hg : Heap.Grows h h') (names : List Str) :
    ∀ r d : Nat, Directory.descend h r names = some d →
      Directory.descend h' r names = some d := by
  induction names with
  | nil => intro r d hd; exact hd
  | cons n names ih =>
    intro r d hd
    simp only [Directory.descend] at hd ⊢
    cases hr : h[r]? with
    | none => simp [hr] at hd
    | some nr =>
      rw [hr] at hd
      cases hf : nr.m_children.find n with
      | none => simp [hf] at hd
      | some c =>
        simp only [hf] at hd
        obtain ⟨nr', hr', _, _, _, hch⟩ := hg r nr hr
        simp only [hr', hch n c hf]
        exact ih c d hd

theorem Directory.descend_snoc (heap : Heap) (names : List Str) (s : Str) :
    ∀ (r p d : Nat) (np : Node), Directory.descend heap r names = some p →
      heap[p]? = some np → np.m_children.find s = some d →
      Directory.descend heap r (names ++ [s]) = some d := by
  induction names with
  | nil =>
    intro r p d np hp hnp hf
    simp only [Directory.descend, Option.some.injEq] at hp
    subst hp
    simp [Directory.descend, hnp, hf]
  | cons n names ih =>
    intro r p d np hp hnp hf
    simp only [List.cons_append, Directory.descend] at hp ⊢
    cases hr : heap[r]? with
    | none => simp [hr] at hp
    | some nr =>
      rw [hr] at hp
      cases hfn : nr.m_children.find n with
      | none => simp [hfn] at hp
      | some c =>
        simp only [hfn] at hp ⊢
        exact ih c p d np hp hnp hf

/-- Building a chain below an empty directory: every call returns, and the chain can be
followed from the root afterwards. -/
theorem FileSystem.run_chainOps (names : List Str) :
    ∀ (fs : FileSystem) (pre : List Str) (nd : Node), names ≠ [] →
      (∀ n ∈ names, n ≠ [] ∧ '/' ∉ n) →
      fs.root = 0 → Heap.WellFormed fs.heap →
      Directory.descend fs.heap 0 pre = some fs.current →
      fs.heap[fs.current]? = some nd → nd.m_nodeType = NodeType.DIRECTORY →
      nd.m_children = [] →
      (∀ r ∈ fs.results (chainOps names), r = Result.returned) ∧
        ∃ d, Directory.descend (fs.run (chainOps names)).heap 0 (pre ++ names) = some d := by
  induction names with
  | nil => intro fs pre nd hne; exact absurd rfl hne
  | cons n rest ih =>
    intro fs pre nd _ hnames hroot hwf hpre hnd hty hch
    have hn := hnames n (List.mem_cons_self _ _)
    have hfn : nd.m_children.find n = none := by rw [hch]; rfl
    obtain ⟨hres, hr1, hc1, hlen1, hnew1, hcur1, _⟩ :=
      FileSystem.createdIn_of_createNode fs nd n true hnd hty hfn
    simp only [if_true] at hnew1
    have hgrow := Directory.createNode_grows fs.heap fs.current n true
    have hwf1 := Directory.createNode_wellFormed fs.heap fs.current n true hwf
    have hpre1 := Directory.descend_grows _ _ hgrow pre 0 fs.current hpre
    have hfind1 : ({ nd with m_children := nd.m_children ++ [(n, fs.heap.length)] } :
        Node).m_children.find n = some fs.heap.length :=
      Children.find_append_single _ _ _ hfn
    have hdesc1 := Directory.descend_snoc _ pre n 0 fs.current fs.heap.length _ hpre1 hcur1 hfind1
    cases rest with
    | nil =>
      constructor
      · intro r hr
        simp only [chainOps, FileSystem.results, FileSystem.step, List.mem_singleton] at hr
        rw [hr]
        exact hres
      · exact ⟨fs.heap.length, hdesc1⟩
    | cons m rest =>
      have hhead : n.head? ≠ some '/' := by
        cases n with
        | nil => simp
        | cons c cs =>
          simp only [List.head?_cons, ne_eq, Option.some.injEq]
          exact fun e => hn.2 (e ▸ List.mem_cons_self _ _)
      have hcd : FileSystem.changeDirectory
          { fs with heap := (Directory.createNode fs.heap fs.current n true).2 } n =
          (Result.returned,
            { fs with heap := (Directory.createNode fs.heap fs.current n true).2,
                      current := fs.heap.length }) := by
        simp only [FileSystem.changeDirectory, hn.1, hhead, if_false, Directory.findChild,
          getlines_of_no_slash n hn.1 hn.2, Directory.findChildLoop, Directory.findChildStep]
        simp only [] at hcur1
        rw [hcur1]
        simp only [hty, if_true, hfind1]
      obtain ⟨hres2, d, hd⟩ := ih
        { fs with heap := (Directory.createNode fs.heap fs.current n true).2,
                  current := fs.heap.length }
        (pre ++ [n]) (Directory.mk n (some fs.current)) (by simp)
        (fun x hx => hnames x (List.mem_cons_of_mem _ hx)) hroot hwf1 hdesc1 hnew1 rfl rfl
      have hstep1 : (fs.step (Op.createDirectory n)).2 =
          { fs with heap := (Directory.createNode fs.heap fs.current n true).2 } := rfl
      constructor
      · intro r hr
        simp only [chainOps, FileSystem.results, List.mem_cons] at hr
        rcases hr with hr | hr | hr
        · rw [hr]; exact hres
        · rw [hr, hstep1]
          simp only [FileSystem.step, hcd]
        · rw [hstep1] at hr
          simp only [FileSystem.step, hcd] at hr
          exact hres2 r hr
      · refine ⟨d, ?_⟩
        simp only [chainOps, FileSystem.run]
        rw [hstep1]
        simp only [FileSystem.step, hcd]
        rw [List.append_assoc] at hd
        exact hd

/-- Claim C4 (path round-trip).  Let `names` be a non-empty list of names, each non-empty and
without '/'.  On a fresh `FileSystem` every call of `createDirectory n1`, `changeDirectory n1`,
..., `createDirectory nk` returns normally; and in the state they produce, with `current` set to
any address `c` whatever, `changeDirectory "/n1/.../nk"` returns normally and
`printWorkingDirectory` then returns exactly "/n1/.../nk". -/
theorem changeDirectory_printWorkingDirectory_roundtrip (names : List Str) (hne : names ≠ [])
    (hnames : ∀ n ∈ names, n ≠ [] ∧ '/' ∉ n) (c : Nat) :
    (∀ r ∈ FileSystem.new.results (chainOps names), r = Result.returned) ∧
    (FileSystem.changeDirectory { FileSystem.new.run (chainOps names) with current := c }
        ('/' :: List.intercalate ['/'] names)).1 = Result.returned ∧
    (FileSystem.changeDirectory { FileSystem.new.run (chainOps names) with current := c }
        ('/' :: List.intercalate ['/'] names)).2.printWorkingDirectory =
      some ('/' :: List.intercalate ['/'] names) := by
  obtain ⟨hres, d, hd⟩ := FileSystem.run_chainOps names FileSystem.new [] (Directory.mk ['/'] none)
    hne hnames rfl Heap.wellFormed_new rfl rfl rfl rfl
  obtain ⟨hroot, hwf⟩ := FileSystem.run_wellFormed (chainOps names) FileSystem.new
    ⟨rfl, Heap.wellFormed_new⟩
  rw [List.nil_append] at hd
  have hgl := getlines_intercalate names hne hnames
  have hnil : List.intercalate ['/'] names ≠ [] := by
    intro e
    rw [e] at hgl
    exact hne hgl.symm
  have hfc : Directory.findChild (FileSystem.new.run (chainOps names)).heap 0
      (List.intercalate ['/'] names) = Except.ok d := by
    simp only [Directory.findChild, hnil, if_false, hgl]
    exact Directory.findChildLoop_descend _ hwf names 0 d hd
  have hcd : FileSystem.changeDirectory
      { FileSystem.new.run (chainOps names) with current := c }
      ('/' :: List.intercalate ['/'] names) =
      (Result.returned, { FileSystem.new.run (chainOps names) with current := d }) := by
    simp only [FileSystem.changeDirectory, List.head?_cons, List.tail_cons, hroot, hfc]
    simp
  rw [hcd]
  exact ⟨hres, rfl, Directory.printWorkingDirectory_descend _ hwf names d hd⟩

/-- Witness for `changeDirectory_printWorkingDirectory_roundtrip`: the chain "/hello2/world2"
of the demonstration in `main`, entered from the cursor left on "hello2" (address 1). -/
theorem changeDirectory_printWorkingDirectory_roundtrip_witness :
    (∀ r ∈ FileSystem.new.results
        (chainOps [['h', 'e', 'l', 'l', 'o', '2'], ['w', 'o', 'r', 'l', 'd', '2']]),
      r = Result.returned) ∧
    (FileSystem.changeDirectory
        { FileSystem.new.run
            (chainOps [['h', 'e', 'l', 'l', 'o', '2'], ['w', 'o', 'r', 'l', 'd', '2']]) with
          current := 1 }
        ('/' :: List.intercalate ['/']
          [['h', 'e', 'l', 'l', 'o', '2'], ['w', 'o', 'r', 'l', 'd', '2']])).1 =
      Result.returned ∧
    (FileSystem.changeDirectory
        { FileSystem.new.run
            (chainOps [['h', 'e', 'l', 'l', 'o', '2'], ['w', 'o', 'r', 'l', 'd', '2']]) with
          current := 1 }
        ('/' :: List.intercalate ['/']
          [['h', 'e', 'l', 'l', 'o', '2'], ['w', 'o', 'r', 'l', 'd', '2']])).2.printWorkingDirectory =
      some ('/' :: List.intercalate ['/']
        [['h', 'e', 'l', 'l', 'o', '2'], ['w', 'o', 'r', 'l', 'd', '2']]) :=
  changeDirectory_printWorkingDirectory_roundtrip
    [['h', 'e', 'l', 'l', 'o', '2'], ['w', 'o', 'r', 'l', 'd', '2']] (by decide) (by decide) 1

/-! ## Absolute, empty and file-crossing paths -/

theorem Directory.findChild_eq_findChildLoop (heap : Heap) (this : Nat) (path : Str) :
    Directory.findChild heap this path = Directory.findChildLoop heap this (getlines path) := by
  unfold Directory.findChild
  split
  · rename_i hp
    rw [hp]
    rfl
  · rfl

theorem Directory.findChildLoop_append (heap : Heap) (a b : List Str) :
    ∀ t : Nat, Directory.findChildLoop heap t (a ++ b) =
      match Directory.findChildLoop heap t a with
      | Except.ok r => Directory.findChildLoop heap r b
      | Except.error e => Except.error e := by
  induction a with
  | nil => intro t; rfl
  | cons v a ih =>
    intro t
    simp only [List.cons_append, Directory.findChildLoop]
    cases Directory.findChildStep heap t v with
    | error e => rfl
    | ok t' => exact ih t'

/-- What `changeDirectory` does with a path that starts with "/": the rest of the path is
resolved from `root`. -/
theorem FileSystem.changeDirectory_absolute_eq (fs : FileSystem) (q : Str) :
    fs.changeDirectory ('/' :: q) =
      match Directory.findChild fs.heap fs.root q with
      | Except.ok n => (Result.returned, { fs with current := n })
      | Except.error e => (Result.threw e, fs) := by
  simp [FileSystem.changeDirectory]

/-- Claim C11 (absolute paths ignore the cursor).  For every heap and root, every string `q` and
any two values `c1`, `c2` of the cursor, `changeDirectory ("/" ++ q)` has the same outcome from
both: it returns from both or throws the same exception from both; when it returns, the new
cursor is the same from both and is the node `findChild` resolves `q` to from `root`.  The path
"/" always returns and puts the cursor on `root`; in a state reached from a fresh `FileSystem`,
`printWorkingDirectory` then returns "/". -/
theorem changeDirectory_absolute_ignores_cursor (fs : FileSystem) (q : Str) (c1 c2 : Nat) :
    (FileSystem.changeDirectory { fs with current := c1 } ('/' :: q)).1 =
        (FileSystem.changeDirectory { fs with current := c2 } ('/' :: q)).1 ∧
    ((FileSystem.changeDirectory { fs with current := c1 } ('/' :: q)).1 = Result.returned →
      (FileSystem.changeDirectory { fs with current := c1 } ('/' :: q)).2.current =
          (FileSystem.changeDirectory { fs with current := c2 } ('/' :: q)).2.current ∧
        Directory.findChild fs.heap fs.root q =
          Except.ok (FileSystem.changeDirectory { fs with current := c1 } ('/' :: q)).2.current) ∧
    ((FileSystem.changeDirectory { fs with current := c1 } ('/' :: q)).1 ≠ Result.returned →
      Directory.findChild fs.heap fs.root q = Except.error Thrown.notAValidPath) ∧
    fs.changeDirectory ['/'] = (Result.returned, { fs with current := fs.root }) ∧
    (FileSystem.Reachable fs →
      (fs.changeDirectory ['/']).2.printWorkingDirectory = some ['/']) := by
  rw [FileSystem.changeDirectory_absolute_eq, FileSystem.changeDirectory_absolute_eq]
  refine ⟨?_, ?_, ?_, ?_, ?_⟩
  · cases Directory.findChild fs.heap fs.root q <;> rfl
  · cases hf : Directory.findChild fs.heap fs.root q with
    | ok n => intro _; exact ⟨rfl, rfl⟩
    | error e => intro h; cases h
  · cases hf : Directory.findChild fs.heap fs.root q with
    | ok n => intro h; exact absurd rfl h
    | error e =>
      intro _
      rw [Directory.findChild_error _ _ _ e hf]
  · rfl
  · intro hr
    obtain ⟨hroot, ⟨r, hr0, hname, hpar⟩, _⟩ := hr.wellFormed
    have h1 : fs.changeDirectory ['/'] = (Result.returned, { fs with current := fs.root }) := rfl
    rw [h1]
    simp [FileSystem.printWorkingDirectory, Directory.printWorkingDirectory, hroot, hr0, hname,
      hpar, Directory.pwdLoop]

/-- Witness for `changeDirectory_absolute_ignores_cursor`: the root holds the directories "a"
and "b"; the path "/b" is entered from the cursor positions 0 (the root) and 1 (on "a") and
leads to address 2 from both, and the path "/" leads back to the root. -/
theorem changeDirectory_absolute_ignores_cursor_witness :
    FileSystem.Reachable
      (FileSystem.new.run [Op.createDirectory ['a'], Op.createDirectory ['b']]) ∧
    (FileSystem.changeDirectory
      { FileSystem.new.run [Op.createDirectory ['a'], Op.createDirectory ['b']] with
        current := 0 } ['/', 'b']).1 = Result.returned ∧
    ((FileSystem.changeDirectory
      { FileSystem.new.run [Op.createDirectory ['a'], Op.createDirectory ['b']] with
        current := 0 } ['/', 'b']).2.current =
      (FileSystem.changeDirectory
        { FileSystem.new.run [Op.createDirectory ['a'], Op.createDirectory ['b']] with
          current := 1 } ['/', 'b']).2.current ∧
      Directory.findChild
          (FileSystem.new.run [Op.createDirectory ['a'], Op.createDirectory ['b']]).heap
          (FileSystem.new.run [Op.createDirectory ['a'], Op.createDirectory ['b']]).root ['b'] =
        Except.ok (FileSystem.changeDirectory
          { FileSystem.new.run [Op.createDirectory ['a'], Op.createDirectory ['b']] with
            current := 0 } ['/', 'b']).2.current) ∧
    (FileSystem.changeDirectory
      (FileSystem.new.run [Op.createDirectory ['a'], Op.createDirectory ['b']])
      ['/']).2.printWorkingDirectory = some ['/'] :=
  ⟨⟨_, rfl⟩, by decide,
    (changeDirectory_absolute_ignores_cursor
      (FileSystem.new.run [Op.createDirectory ['a'], Op.createDirectory ['b']]) ['b'] 0 1).2.1
      (by decide),
    (changeDirectory_absolute_ignores_cursor
      (FileSystem.new.run [Op.createDirectory ['a'], Op.createDirectory ['b']]) ['b'] 0 1).2.2.2.2
      ⟨_, rfl⟩⟩

/-- Claim C13 (the empty path is a no-op).  In every state `changeDirectory ""` returns normally
and the state afterwards (heap, `root` and `current`) is the state before. -/
theorem changeDirectory_empty (fs : FileSystem) :
    fs.changeDirectory [] = (Result.returned, fs) := by
  rfl

/-- Claim C14 (a file in the middle of a path).  Let the values that `getline` reads from the
path (without its leading "/", if it has one) be `pre`, then `s`, then `m`, then `more`, and let
the walk of `findChild` stand on a node of type `FILE` once it has read `pre` and `s`.  Then
`changeDirectory path` throws "Not a valid path." and the state, `current` included, is
unchanged. -/
theorem changeDirectory_file_in_middle (fs : FileSystem) (path : Str) (pre : List Str)
    (s m : Str) (more : List Str) (f : Nat) (nf : Node)
    (hsegs : getlines (if path.head? = some '/' then path.tail else path) =
      pre ++ s :: m :: more)
    (hwalk : Directory.findChildLoop fs.heap
      (if path.head? = some '/' then fs.root else fs.current) (pre ++ [s]) = Except.ok f)
    (hf : fs.heap[f]? = some nf) (hfile : nf.m_nodeType = NodeType.FILE) :
    fs.changeDirectory path = (Result.threw Thrown.notAValidPath, fs) := by
  have hloop : Directory.findChildLoop fs.heap
      (if path.head? = some '/' then fs.root else fs.current) (pre ++ s :: m :: more) =
      Except.error Thrown.notAValidPath := by
    have e : pre ++ s :: m :: more = (pre ++ [s]) ++ (m :: more) := by simp
    rw [e, Directory.findChildLoop_append, hwalk]
    simp [Directory.findChildLoop, Directory.findChildStep, hf, hfile]
  have hp : path ≠ [] := by
    intro e
    rw [e] at hsegs
    simp [getlines] at hsegs
  unfold FileSystem.changeDirectory
  simp only [hp, if_false]
  by_cases hh : path.head? = some '/'
  · simp only [hh, if_true] at hsegs hloop ⊢
    rw [Directory.findChild_eq_findChildLoop, hsegs, hloop]
  · simp only [hh, if_false] at hsegs hloop ⊢
    rw [Directory.findChild_eq_findChildLoop, hsegs, hloop]

/-- Witness for `changeDirectory_file_in_middle`: the root holds the file "f", and the path
"f/x" reads "x" while the walk stands on that file. -/
theorem changeDirectory_file_in_middle_witness :
    (FileSystem.new.createFile ['f']).2.changeDirectory ['f', '/', 'x'] =
      (Result.threw Thrown.notAValidPath, (FileSystem.new.createFile ['f']).2) :=
  changeDirectory_file_in_middle (FileSystem.new.createFile ['f']).2 ['f', '/', 'x'] []
    ['f'] ['x'] [] 1 (File.mk ['f'] (some 0)) (by decide) rfl (by decide) rfl

/-! ## Resolution does not write -/

theorem Heap.set_of_getElem? (heap : Heap) :
    ∀ (i : Nat) (n : Node), heap[i]? = some n → heap.set i n = heap := by
  induction heap with
  | nil => intro i n h; rfl
  | cons x xs ih =>
    intro i n h
    cases i with
    | zero =>
      simp only [List.getElem?_cons_zero, Option.some.injEq] at h
      rw [h]
      rfl
    | succ i =>
      simp only [List.getElem?_cons_succ] at h
      simp only [List.set_cons_succ, ih i n h]

theorem Directory.findChildStepTracked_eq (heap : Heap) (temp : Nat) (value : Str) :
    Directory.findChildStepTracked heap temp value =
      some (Directory.findChildStep heap temp value, heap) := by
  unfold Directory.findChildStepTracked Directory.findChildStep
  cases hn : heap[temp]? with
  | none => rfl
  | some n =>
    simp only []
    by_cases ht : n.m_nodeType = NodeType.DIRECTORY
    · simp only [ht, if_true]
      cases hf : n.m_children.find value with
      | none =>
        have hc : n.m_children.count value = 0 := (Children.count_eq_zero_iff _ _).mpr hf
        simp [hc]
      | some c =>
        have hc : n.m_children.count value ≠ 0 := by
          rw [Ne, Children.count_eq_zero_iff, hf]
          simp
        simp only [hc, ne_eq, not_false_eq_true, if_true, Children.subscript, hf]
        have e : ({ m_name := n.m_name, m_parent := n.m_parent,
                    m_nodeType := NodeType.DIRECTORY, m_children := n.m_children } : Node) =
            n := by
          cases n
          simp_all
        rw [e, Heap.set_of_getElem? heap temp n hn]
    · rw [if_neg ht, if_neg ht]

theorem Directory.findChildLoopTracked_eq (values : List Str) :
    ∀ (heap : Heap) (temp : Nat), Directory.findChildLoopTracked heap temp values =
      some (Directory.findChildLoop heap temp values, heap) := by
  induction values with
  | nil => intro heap temp; rfl
  | cons v vs ih =>
    intro heap temp
    simp only [Directory.findChildLoopTracked, Directory.findChildLoop,
      Directory.findChildStepTracked_eq]
    cases Directory.findChildStep heap temp v with
    | error e => rfl
    | ok t => exact ih heap t

theorem Directory.findChildTracked_eq (heap : Heap) (this : Nat) (path : Str) :
    Directory.findChildTracked heap this path =
      some (Directory.findChild heap this path, heap) := by
  unfold Directory.findChildTracked Directory.findChild
  split
  · rfl
  · exact Directory.findChildLoopTracked_eq _ heap this

/-- Claim C16 (resolution is read-only).  `changeDirectory`, with every access of `findChild` to
`m_children` followed through the heap, never reaches an insertion by `operator[]` (the result
is never `none`), and whether it returns or throws it produces the outcome and state of
`FileSystem.changeDirectory`, whose heap, and so the `m_children` of every directory, is the heap
before the call; `root` is unchanged too. -/
theorem changeDirectory_read_only (fs : FileSystem) (path : Str) :
    fs.changeDirectoryTracked path = some (fs.changeDirectory path) ∧
      (fs.changeDirectory path).2.heap = fs.heap ∧
      (fs.changeDirectory path).2.root = fs.root := by
  refine ⟨?_, FileSystem.changeDirectory_heap_root fs path⟩
  unfold FileSystem.changeDirectoryTracked FileSystem.changeDirectory
  simp only [Directory.findChildTracked_eq]
  split
  · rfl
  · split
    · cases Directory.findChild fs.heap fs.root path.tail <;> rfl
    · cases Directory.findChild fs.heap fs.current path <;> rfl

/-! ## Parent and child links -/

theorem Heap.linked_new : Heap.Linked FileSystem.new.heap := by
  constructor
  · intro d nd k c hd hk
    have hlt := Heap.lt_length_of_getElem? _ d nd hd
    have hd0 : d = 0 := by
      simp [FileSystem.new] at hlt
      exact hlt
    subst hd0
    simp [FileSystem.new, Directory.mk] at hd
    subst hd
    simp at hk
  · intro i n hi hi0
    have hlt := Heap.lt_length_of_getElem? _ i n hi
    simp [FileSystem.new] at hlt
    exact absurd hlt hi0

theorem Directory.createNode_linked (heap : Heap) (this : Nat) (name : Str) (b : Bool)
    (hl : Heap.Linked heap) : Heap.Linked (Directory.createNode heap this name b).2 := by
  rcases Directory.createNode_cases heap this name b with ⟨h, _⟩ | ⟨d, hd, ht, hf, heq⟩
  · rw [h]
    exact hl
  · have hgrow := Directory.createNode_grows heap this name b
    rw [heq] at hgrow ⊢
    simp only [] at hgrow ⊢
    have hthis := Heap.lt_length_of_getElem? heap this d hd
    obtain ⟨hl1, hl2⟩ := hl
    constructor
    · intro i ni k c hi hk
      rw [Heap.getElem?_set_append heap this _ _ i hthis] at hi
      by_cases hit : i = this
      · subst hit
        simp only [if_true, Option.some.injEq] at hi
        subst hi
        simp only [List.mem_append, List.mem_singleton, Prod.mk.injEq] at hk
        rcases hk with hk | ⟨hk1, hk2⟩
        · obtain ⟨nc, hnc, hname, hpar⟩ := hl1 i d k c hd hk
          obtain ⟨nc', hnc', e1, e2, _, _⟩ := hgrow c nc hnc
          exact ⟨nc', hnc', e1.trans hname, e2.trans hpar⟩
        · subst hk1
          subst hk2
          rw [Heap.getElem?_set_append heap i _ _ _ hthis]
          have hne : heap.length ≠ i := Nat.ne_of_gt hthis
          simp only [hne, if_false, if_true]
          cases b <;> exact ⟨_, rfl, rfl, rfl⟩
      · simp only [hit, if_false] at hi
        by_cases hil : i = heap.length
        · simp only [hil, if_true, Option.some.injEq] at hi
          subst hi
          cases b <;> simp [Directory.mk, File.mk] at hk
        · simp only [hil, if_false] at hi
          obtain ⟨nc, hnc, hname, hpar⟩ := hl1 i ni k c hi hk
          obtain ⟨nc', hnc', e1, e2, _, _⟩ := hgrow c nc hnc
          exact ⟨nc', hnc', e1.trans hname, e2.trans hpar⟩
    · intro i ni hi hi0
      rw [Heap.getElem?_set_append heap this _ _ i hthis] at hi
      by_cases hit : i = this
      · subst hit
        simp only [if_true, Option.some.injEq] at hi
        subst hi
        obtain ⟨p, np, hpar, hlt, hnp, hfind⟩ := hl2 i d hd hi0
        obtain ⟨np', hnp', _, _, _, hch⟩ := hgrow p np hnp
        exact ⟨p, np', hpar, hlt, hnp', hch _ _ hfind⟩
      · simp only [hit, if_false] at hi
        by_cases hil : i = heap.length
        · simp only [hil, if_true, Option.some.injEq] at hi
          subst hi
          subst hil
          refine ⟨this, { d with m_children := d.m_children ++ [(name, heap.length)] }, ?_,
            hthis, ?_, ?_⟩
          · cases b <;> rfl
          · rw [Heap.getElem?_set_append heap this _ _ _ hthis]
            simp
          · have hn : (if b = true then Directory.mk name (some this)
                else File.mk name (some this)).m_name = name := by cases b <;> rfl
            rw [hn]
            exact Children.find_append_single _ _ _ hf
        · simp only [hil, if_false] at hi
          obtain ⟨p, np, hpar, hlt, hnp, hfind⟩ := hl2 i ni hi hi0
          obtain ⟨np', hnp', _, _, _, hch⟩ := hgrow p np hnp
          exact ⟨p, np', hpar, hlt, hnp', hch _ _ hfind⟩

theorem FileSystem.step_linked (fs : FileSystem) (op : Op) (h : Heap.Linked fs.heap) :
    Heap.Linked (fs.step op).2.heap := by
  cases op with
  | createDirectory name => exact Directory.createNode_linked fs.heap fs.current name true h
  | createFile name => exact Directory.createNode_linked fs.heap fs.current name false h
  | changeDirectory path =>
    simp only [FileSystem.step]
    rw [(FileSystem.changeDirectory_heap_root fs path).1]
    exact h

theorem FileSystem.run_linked (ops : List Op) :
    ∀ fs : FileSystem, Heap.Linked fs.heap → Heap.Linked (fs.run ops).heap := by
  induction ops with
  | nil => intro fs h; exact h
  | cons op ops ih =>
    intro fs h
    exact ih _ (FileSystem.step_linked fs op h)

theorem FileSystem.Reachable.linked {fs : FileSystem} (h : FileSystem.Reachable fs) :
    Heap.Linked fs.heap := by
  obtain ⟨ops, rfl⟩ := h
  exact FileSystem.run_linked ops FileSystem.new Heap.linked_new

/-- In a linked heap every object is reached from address 0 through names of children. -/
theorem Heap.Linked.exists_descend {heap : Heap} (hl : Heap.Linked heap) :
    ∀ (i : Nat) (n : Node), heap[i]? = some n →
      ∃ names : List Str, Directory.descend heap 0 names = some i := by
  intro i
  induction i using Nat.strong_induction_on with
  | _ i ih =>
    intro n hi
    by_cases hi0 : i = 0
    · exact ⟨[], by rw [hi0]; rfl⟩
    · obtain ⟨p, np, _, hlt, hnp, hfind⟩ := hl.2 i n hi hi0
      obtain ⟨names, hnames⟩ := ih p hlt np hnp
      exact ⟨names ++ [n.m_name], Directory.descend_snoc heap names _ 0 p i np hnames hnp hfind⟩

/-- In a linked heap the parent chain of every object arrives at address 0. -/
theorem Heap.Linked.exists_ancestor {heap : Heap} (hl : Heap.Linked heap) :
    ∀ (i : Nat) (n : Node), heap[i]? = some n →
      ∃ k : Nat, k ≤ i ∧ Node.ancestor heap k i = some 0 := by
  intro i
  induction i using Nat.strong_induction_on with
  | _ i ih =>
    intro n hi
    by_cases hi0 : i = 0
    · exact ⟨0, Nat.zero_le _, by rw [hi0]; rfl⟩
    · obtain ⟨p, np, hpar, hlt, hnp, _⟩ := hl.2 i n hi hi0
      obtain ⟨k, hk, hanc⟩ := ih p hlt np hnp
      refine ⟨k + 1, by omega, ?_⟩
      simp only [Node.ancestor, hi, hpar]
      exact hanc

/-- Claim C17 (tree well-formedness).  Every state reached from a fresh `FileSystem` satisfies
`FileSystem.TreeWellFormed`: the object at `root` is named "/" and has no parent; every entry
`(k, c)` in the `m_children` of an object at `D` is the address of an object named `k` with parent
`D`; and every object is reached from `root` through names of children, has a parent unless it
is at `root`, has a parent chain that arrives at `root` after at most as many steps as its
address, and gets a string from `printWorkingDirectory`. -/
theorem reachable_tree_wellFormed (fs : FileSystem) (hr : FileSystem.Reachable fs) :
    FileSystem.TreeWellFormed fs := by
  obtain ⟨hroot, hwf⟩ := hr.wellFormed
  have hl := hr.linked
  unfold FileSystem.TreeWellFormed
  rw [hroot]
  refine ⟨hwf.1, hl.1, ?_⟩
  intro i n hi
  obtain ⟨names, hnames⟩ := hl.exists_descend i n hi
  refine ⟨⟨names, hnames⟩, ?_, hl.exists_ancestor i n hi,
    ⟨_, Directory.printWorkingDirectory_descend fs.heap hwf names i hnames⟩⟩
  intro hpar
  by_contra hi0
  obtain ⟨p, _, hp, _⟩ := hl.2 i n hi hi0
  rw [hpar] at hp
  cases hp

/-- Witness for `reachable_tree_wellFormed`: the state after `createDirectory "a"`,
`changeDirectory "a"`, `createFile "f"`. -/
theorem reachable_tree_wellFormed_witness :
    FileSystem.Reachable (FileSystem.new.run [Op.createDirectory ['a'],
      Op.changeDirectory ['a'], Op.createFile ['f']]) ∧
    FileSystem.TreeWellFormed (FileSystem.new.run [Op.createDirectory ['a'],
      Op.changeDirectory ['a'], Op.createFile ['f']]) :=
  ⟨⟨_, rfl⟩,
    reachable_tree_wellFormed
      (FileSystem.new.run [Op.createDirectory ['a'], Op.changeDirectory ['a'],
        Op.createFile ['f']]) ⟨_, rfl⟩⟩

/-! ## Entering a directory just created -/

theorem Directory.pwdLoop_append_acc (heap : Heap) (fuel : Nat) :
    ∀ (t : Option Nat) (x acc : Str),
      Directory.pwdLoop heap fuel t (x ++ acc) =
        (Directory.pwdLoop heap fuel t x).map (fun r => r ++ acc) := by
  induction fuel with
  | zero =>
    intro t x acc
    cases t <;> simp [Directory.pwdLoop]
  | succ f ih =>
    intro t x acc
    cases t with
    | none => simp [Directory.pwdLoop]
    | some t =>
      simp only [Directory.pwdLoop]
      cases heap[t]? with
      | none => rfl
      | some n =>
        simp only []
        rw [← ih]
        simp only [List.append_assoc]

theorem Directory.pwdLoop_grows (h h' : Heap) (hg : Heap.Grows h h') (fuel : Nat) :
    ∀ (t : Option Nat) (x r : Str), Directory.pwdLoop h fuel t x = some r →
      Directory.pwdLoop h' fuel t x = some r := by
  induction fuel with
  | zero =>
    intro t x r hr
    cases t with
    | none => exact hr
    | some t => simp [Directory.pwdLoop] at hr
  | succ f ih =>
    intro t x r hr
    cases t with
    | none => simpa [Directory.pwdLoop] using hr
    | some t =>
      simp only [Directory.pwdLoop] at hr ⊢
      cases hn : h[t]? with
      | none => simp [hn] at hr
      | some n =>
        rw [hn] at hr
        obtain ⟨n', hn', e1, e2, _, _⟩ := hg t n hn
        simp only [hn', e1, e2]
        exact ih _ _ _ hr

/-- After `createDirectory n` on a directory without the key `n`, `changeDirectory n` enters the
new directory, and its path is the path of the old cursor followed by `n`, with a "/" between
them unless the old cursor has no parent. -/
theorem FileSystem.create_then_enter (fs : FileSystem) (nd : Node) (P n : Str)
    (hnd : fs.heap[fs.current]? = some nd) (ht : nd.m_nodeType = NodeType.DIRECTORY)
    (hP : fs.printWorkingDirectory = some P) (hne : n ≠ []) (hs : '/' ∉ n)
    (hf : nd.m_children.find n = none) :
    (fs.createDirectory n).1 = Result.returned ∧
    (fs.createDirectory n).2.changeDirectory n =
      (Result.returned, { (fs.createDirectory n).2 with current := fs.heap.length }) ∧
    Directory.printWorkingDirectory (fs.createDirectory n).2.heap fs.heap.length =
      some (P ++ ((if nd.m_parent = none then [] else ['/']) ++ n)) := by
  obtain ⟨hres, hr1, hc1, hlen1, hnew1, hcur1, _⟩ :=
    FileSystem.createdIn_of_createNode fs nd n true hnd ht hf
  simp only [if_true] at hnew1
  have hgrow := Directory.createNode_grows fs.heap fs.current n true
  have hfind1 : ({ nd with m_children := nd.m_children ++ [(n, fs.heap.length)] } :
      Node).m_children.find n = some fs.heap.length :=
    Children.find_append_single _ _ _ hf
  have hhead : n.head? ≠ some '/' := by
    cases n with
    | nil => simp
    | cons c cs =>
      simp only [List.head?_cons, ne_eq, Option.some.injEq]
      exact fun e => hs (e ▸ List.mem_cons_self _ _)
  refine ⟨hres, ?_, ?_⟩
  · simp only [FileSystem.createDirectory, FileSystem.changeDirectory, hne, hhead, if_false,
      Directory.findChild, getlines_of_no_slash n hne hs, Directory.findChildLoop,
      Directory.findChildStep]
    simp only [] at hcur1
    rw [hcur1]
    simp only [ht, if_true, hfind1]
  · simp only [FileSystem.createDirectory]
    simp only [] at hnew1 hcur1 hlen1
    unfold Directory.printWorkingDirectory
    rw [hnew1, hlen1]
    simp only [Directory.pwdLoop, hcur1]
    unfold FileSystem.printWorkingDirectory Directory.printWorkingDirectory at hP
    rw [hnd] at hP
    simp only [] at hP
    have h2 := Directory.pwdLoop_grows _ _ hgrow _ _ _ _ hP
    rw [List.append_assoc, Directory.pwdLoop_append_acc, h2]
    rfl

/-- Claim C12, the code at the counterexample.  After `createDirectory ""` and
`changeDirectory "//"` the cursor is on the directory named "" below the root (address 1) and
`printWorkingDirectory` returns "/".  For the name "n", which is non-empty, has no '/' and is not
a child of the cursor, `createDirectory "n"` and `changeDirectory "n"` return normally, and
`printWorkingDirectory` then returns "//n", not "/n". -/
theorem create_then_enter_below_empty_name :
    ((FileSystem.new.run [Op.createDirectory [], Op.changeDirectory ['/', '/']]).heap[
        (FileSystem.new.run [Op.createDirectory [], Op.changeDirectory ['/', '/']]).current]?).map
      Node.m_nodeType = some NodeType.DIRECTORY ∧
    ((FileSystem.new.run [Op.createDirectory [], Op.changeDirectory ['/', '/']]).heap[
        (FileSystem.new.run [Op.createDirectory [], Op.changeDirectory ['/', '/']]).current]?).map
      Node.m_children = some [] ∧
    (FileSystem.new.run
      [Op.createDirectory [], Op.changeDirectory ['/', '/']]).printWorkingDirectory =
      some ['/'] ∧
    ((FileSystem.new.run [Op.createDirectory [], Op.changeDirectory ['/', '/']]).createDirectory
      ['n']).1 = Result.returned ∧
    (((FileSystem.new.run [Op.createDirectory [], Op.changeDirectory ['/', '/']]).createDirectory
      ['n']).2.changeDirectory ['n']).1 = Result.returned ∧
    (((FileSystem.new.run [Op.createDirectory [], Op.changeDirectory ['/', '/']]).createDirectory
      ['n']).2.changeDirectory ['n']).2.printWorkingDirectory = some ['/', '/', 'n'] ∧
    (((FileSystem.new.run [Op.createDirectory [], Op.changeDirectory ['/', '/']]).createDirectory
      ['n']).2.changeDirectory ['n']).2.printWorkingDirectory ≠ some ('/' :: ['n']) := by
  decide

/-- Claim C12 as amended (relative descent).  In a state reached from a fresh `FileSystem` whose
cursor is a directory with `printWorkingDirectory` = `P`, for a name `n` that is non-empty, has no
'/' and is not a key of the cursor's children: `createDirectory n` returns, `changeDirectory n`
then returns, and `printWorkingDirectory` then returns "/" ++ `n` when the cursor was the root
and `P` ++ "/" ++ `n` otherwise. -/
theorem create_then_enter_path (fs : FileSystem) (hr : FileSystem.Reachable fs) (nd : Node)
    (P n : Str) (hnd : fs.heap[fs.current]? = some nd)
    (ht : nd.m_nodeType = NodeType.DIRECTORY) (hP : fs.printWorkingDirectory = some P)
    (hne : n ≠ []) (hs : '/' ∉ n) (hn : ∀ v, (n, v) ∉ nd.m_children) :
    (fs.createDirectory n).1 = Result.returned ∧
    ((fs.createDirectory n).2.changeDirectory n).1 = Result.returned ∧
    ((fs.createDirectory n).2.changeDirectory n).2.printWorkingDirectory =
      some (if fs.current = fs.root then '/' :: n else P ++ '/' :: n) := by
  have hf : nd.m_children.find n = none := (Children.find_eq_none_iff _ _).mpr hn
  obtain ⟨h1, h2, h3⟩ := FileSystem.create_then_enter fs nd P n hnd ht hP hne hs hf
  obtain ⟨hroot, ⟨r, hr0, hname, hpar⟩, _⟩ := hr.wellFormed
  have hl := hr.linked
  rw [h2]
  refine ⟨h1, rfl, ?_⟩
  show Directory.printWorkingDirectory (fs.createDirectory n).2.heap fs.heap.length = _
  rw [h3, hroot]
  by_cases hc : fs.current = 0
  · rw [hc] at hnd
    rw [hr0] at hnd
    cases hnd
    have hP' : P = ['/'] := by
      simp [FileSystem.printWorkingDirectory, Directory.printWorkingDirectory, hc, hr0, hname,
        hpar, Directory.pwdLoop] at hP
      exact hP.symm
    simp [hc, hpar, hP']
  · obtain ⟨p, _, hp, _⟩ := hl.2 fs.current nd hnd hc
    simp [hc, hp]

/-- Witness for `create_then_enter_path`: the step of the demonstration in `main` from
"/hello1" to "/hello1/world1", with shorter names. -/
theorem create_then_enter_path_witness :
    ((FileSystem.new.run [Op.createDirectory ['a'], Op.changeDirectory ['a']]).createDirectory
      ['w']).1 = Result.returned ∧
    (((FileSystem.new.run [Op.createDirectory ['a'], Op.changeDirectory ['a']]).createDirectory
      ['w']).2.changeDirectory ['w']).1 = Result.returned ∧
    (((FileSystem.new.run [Op.createDirectory ['a'], Op.changeDirectory ['a']]).createDirectory
      ['w']).2.changeDirectory ['w']).2.printWorkingDirectory =
      some (if (FileSystem.new.run [Op.createDirectory ['a'], Op.changeDirectory ['a']]).current =
          (FileSystem.new.run [Op.createDirectory ['a'], Op.changeDirectory ['a']]).root
        then '/' :: ['w'] else ['/', 'a'] ++ '/' :: ['w']) :=
  create_then_enter_path
    (FileSystem.new.run [Op.createDirectory ['a'], Op.changeDirectory ['a']]) ⟨_, rfl⟩
    (Directory.mk ['a'] (some 0)) ['/', 'a'] ['w'] (by decide) rfl (by decide) (by decide)
    (by decide) (by intro v hv; cases hv)

/-! ## When `changeDirectory` throws -/

theorem Directory.findChildLoop_error_iff (heap : Heap) (hwf : Heap.WellFormed heap)
    (segs : List Str) :
    ∀ (pos : Nat) (n : Node), heap[pos]? = some n →
      ((∃ e, Directory.findChildLoop heap pos segs = Except.error e) ↔
        Directory.walkReadsOnFile heap pos segs = true) := by
  induction segs with
  | nil =>
    intro pos n _
    simp [Directory.findChildLoop, Directory.walkReadsOnFile]
  | cons s ss ih =>
    intro pos n hn
    simp only [Directory.findChildLoop, Directory.findChildStep, Directory.walkReadsOnFile, hn]
    cases hty : n.m_nodeType with
    | FILE => simp
    | DIRECTORY =>
      simp only [if_true]
      cases hf : n.m_children.find s with
      | none =>
        simp only []
        have := ih pos n hn
        simpa using this
      | some c =>
        simp only []
        obtain ⟨_, _, nc, hnc, _, _⟩ := hwf.2 pos n s c hn hf
        have := ih c nc hnc
        simpa using this

/-- Claim C18 (exact failure condition).  In a state reached from a fresh `FileSystem` whose
cursor is the address of an object, `changeDirectory path` fails to return if and only if `path`
is non-empty and the walk over the values that `getline` reads from the path (without its
leading "/", if it has one), from `root` for a path with a leading "/" and from `current`
otherwise, reads some value while it stands on a `FILE`.  A call that does not return throws
"Not a valid path."; in every other case the call returns normally. -/
theorem changeDirectory_throws_iff (fs : FileSystem) (hr : FileSystem.Reachable fs) (nd : Node)
    (hnd : fs.heap[fs.current]? = some nd) (path : Str) :
    ((fs.changeDirectory path).1 ≠ Result.returned ↔
      (path ≠ [] ∧
        Directory.walkReadsOnFile fs.heap
          (if path.head? = some '/' then fs.root else fs.current)
          (getlines (if path.head? = some '/' then path.tail else path)) = true)) ∧
    ((fs.changeDirectory path).1 = Result.returned ∨
      (fs.changeDirectory path).1 = Result.threw Thrown.notAValidPath) := by
  obtain ⟨hroot, hwf⟩ := hr.wellFormed
  obtain ⟨r, hr0, _, _⟩ := hwf.1
  constructor
  · by_cases hp : path = []
    · subst hp
      simp [FileSystem.changeDirectory]
    · by_cases hh : path.head? = some '/'
      · have hiff := Directory.findChildLoop_error_iff fs.heap hwf (getlines path.tail) 0 r hr0
        simp only [FileSystem.changeDirectory, hp, hh, if_true, if_false,
          Directory.findChild_eq_findChildLoop, hroot, ne_eq, not_false_eq_true, true_and]
        rw [← hiff]
        cases Directory.findChildLoop fs.heap 0 (getlines path.tail) <;> simp
      · have hiff := Directory.findChildLoop_error_iff fs.heap hwf (getlines path) fs.current
          nd hnd
        simp only [FileSystem.changeDirectory, hp, hh, if_false,
          Directory.findChild_eq_findChildLoop, ne_eq, not_false_eq_true, true_and]
        rw [← hiff]
        cases Directory.findChildLoop fs.heap fs.current (getlines path) <;> simp
  · by_cases h : (fs.changeDirectory path).1 = Result.returned
    · exact Or.inl h
    · exact Or.inr (FileSystem.changeDirectory_not_returned fs path h).2

/-- Witness for `changeDirectory_throws_iff`: the root holds the file "f"; the path "f/x" makes
the call throw, and the walk reads "x" on that file. -/
theorem changeDirectory_throws_iff_witness :
    ((FileSystem.new.run [Op.createFile ['f']]).changeDirectory ['f', '/', 'x']).1 ≠
      Result.returned ∧
    (['f', '/', 'x'] ≠ ([] : Str) ∧
      Directory.walkReadsOnFile (FileSystem.new.run [Op.createFile ['f']]).heap
        (if (['f', '/', 'x'] : Str).head? = some '/'
          then (FileSystem.new.run [Op.createFile ['f']]).root
          else (FileSystem.new.run [Op.createFile ['f']]).current)
        (getlines (if (['f', '/', 'x'] : Str).head? = some '/'
          then (['f', '/', 'x'] : Str).tail else ['f', '/', 'x'])) = true) :=
  ⟨by decide,
    (changeDirectory_throws_iff (FileSystem.new.run [Op.createFile ['f']]) ⟨_, rfl⟩
      { m_name := ['/'], m_parent := none, m_nodeType := NodeType.DIRECTORY,
        m_children := [(['f'], 1)] } (by decide) ['f', '/', 'x']).1.mp (by decide)⟩

/-! ## Names with a '/' -/

theorem getlines_slash_free (s : Str) : ∀ v ∈ getlines s, '/' ∉ v := by
  induction s with
  | nil => intro v hv; simp [getlines] at hv
  | cons c cs ih =>
    intro v hv
    by_cases hc : c = '/'
    · simp only [getlines, hc, if_true, List.mem_cons] at hv
      rcases hv with hv | hv
      · rw [hv]; simp
      · exact ih v hv
    · simp only [getlines, hc, if_false] at hv
      cases hg : getlines cs with
      | nil =>
        rw [hg] at hv
        simp only [List.mem_singleton] at hv
        rw [hv]
        simp only [List.mem_singleton]
        exact fun e => hc e.symm
      | cons w ws =>
        rw [hg] at hv ih
        simp only [List.mem_cons] at hv
        rcases hv with hv | hv
        · rw [hv]
          simp only [List.mem_cons, not_or]
          exact ⟨fun e => hc e.symm, ih w (List.mem_cons_self _ _)⟩
        · exact ih v (List.mem_cons_of_mem _ hv)

/-- The walk of `findChild` over values without '/' ends where it started or on an object
whose name has no '/'. -/
theorem Directory.findChildLoop_slash_free (heap : Heap) (hwf : Heap.WellFormed heap)
    (segs : List Str) :
    ∀ (t r : Nat), (∀ v ∈ segs, '/' ∉ v) → Directory.findChildLoop heap t segs = Except.ok r →
      r = t ∨ ∃ nr : Node, heap[r]? = some nr ∧ '/' ∉ nr.m_name := by
  induction segs with
  | nil =>
    intro t r _ h
    simp only [Directory.findChildLoop, Except.ok.injEq] at h
    exact Or.inl h.symm
  | cons s ss ih =>
    intro t r hv h
    have hs := hv s (List.mem_cons_self _ _)
    have hss : ∀ v ∈ ss, '/' ∉ v := fun v hv' => hv v (List.mem_cons_of_mem _ hv')
    simp only [Directory.findChildLoop, Directory.findChildStep] at h
    cases hn : heap[t]? with
    | none => simp [hn] at h
    | some n =>
      rw [hn] at h
      simp only [] at h
      by_cases hty : n.m_nodeType = NodeType.DIRECTORY
      · simp only [hty, if_true] at h
        cases hf : n.m_children.find s with
        | none =>
          rw [hf] at h
          exact ih t r hss h
        | some c =>
          rw [hf] at h
          obtain ⟨_, _, nc, hnc, hname, _⟩ := hwf.2 t n s c hn hf
          rcases ih c r hss h with h1 | h1
          · right
            rw [h1]
            exact ⟨nc, hnc, by rw [hname]; exact hs⟩
          · exact Or.inr h1
      · simp [hty] at h

theorem Directory.findChild_slash_free (heap : Heap) (hwf : Heap.WellFormed heap)
    (t r : Nat) (path : Str) (h : Directory.findChild heap t path = Except.ok r) :
    r = t ∨ ∃ nr : Node, heap[r]? = some nr ∧ '/' ∉ nr.m_name := by
  rw [Directory.findChild_eq_findChildLoop] at h
  exact Directory.findChildLoop_slash_free heap hwf _ t r (getlines_slash_free path) h

theorem FileSystem.step_cursorSlashFree (fs : FileSystem) (op : Op)
    (h : (fs.root = 0 ∧ Heap.WellFormed fs.heap) ∧ fs.CursorSlashFree) :
    (fs.step op).2.CursorSlashFree := by
  obtain ⟨⟨hroot, hwf⟩, hc⟩ := h
  have hgrow := FileSystem.step_heap_grows fs op
  cases op with
  | createDirectory name =>
    rcases hc with hc | ⟨n, hn, hs⟩
    · exact Or.inl hc
    · obtain ⟨n', hn', e1, _⟩ := hgrow fs.current n hn
      exact Or.inr ⟨n', hn', by rw [e1]; exact hs⟩
  | createFile name =>
    rcases hc with hc | ⟨n, hn, hs⟩
    · exact Or.inl hc
    · obtain ⟨n', hn', e1, _⟩ := hgrow fs.current n hn
      exact Or.inr ⟨n', hn', by rw [e1]; exact hs⟩
  | changeDirectory path =>
    simp only [FileSystem.step, FileSystem.changeDirectory]
    split
    · exact hc
    · split
      · cases hf : Directory.findChild fs.heap fs.root path.tail with
        | error e => exact hc
        | ok r =>
          rcases Directory.findChild_slash_free fs.heap hwf _ r _ hf with h1 | h1
          · exact Or.inl (h1.trans hroot)
          · exact Or.inr h1
      · cases hf : Directory.findChild fs.heap fs.current path with
        | error e => exact hc
        | ok r =>
          rcases Directory.findChild_slash_free fs.heap hwf _ r _ hf with h1 | h1
          · rcases hc with hc | hc
            · exact Or.inl (h1.trans hc)
            · right
              show ∃ n : Node, fs.heap[r]? = some n ∧ '/' ∉ n.m_name
              rw [h1]
              exact hc
          · exact Or.inr h1

theorem FileSystem.run_cursorSlashFree (ops : List Op) :
    ∀ fs : FileSystem, ((fs.root = 0 ∧ Heap.WellFormed fs.heap) ∧ fs.CursorSlashFree) →
      (fs.run ops).CursorSlashFree := by
  induction ops with
  | nil => intro fs h; exact h.2
  | cons op ops ih =>
    intro fs h
    exact ih _ ⟨FileSystem.step_wellFormed fs op h.1, FileSystem.step_cursorSlashFree fs op h⟩

theorem FileSystem.Reachable.cursorSlashFree {fs : FileSystem} (h : FileSystem.Reachable fs) :
    fs.CursorSlashFree := by
  obtain ⟨ops, rfl⟩ := h
  exact FileSystem.run_cursorSlashFree ops FileSystem.new
    ⟨⟨rfl, Heap.wellFormed_new⟩, Or.inl rfl⟩

theorem FileSystem.run_append (a b : List Op) :
    ∀ fs : FileSystem, fs.run (a ++ b) = (fs.run a).run b := by
  induction a with
  | nil => intro fs; rfl
  | cons op a ih => intro fs; exact ih _

theorem FileSystem.Reachable.run {fs : FileSystem} (h : FileSystem.Reachable fs)
    (ops : List Op) : FileSystem.Reachable (fs.run ops) := by
  obtain ⟨ops0, rfl⟩ := h
  exact ⟨ops0 ++ ops, FileSystem.run_append ops0 ops _⟩

/-- Claim C20 (names with a '/').  In a state reached from a fresh `FileSystem` whose cursor is a
directory without the key `n`, `createDirectory n` and `createFile n` (the call `op`) return
normally also when `n` contains '/', and store the new object at the first free address.  After
any further calls that address still holds an object named `n`, the cursor is never that
address, and for every path neither `findChild` from `root` nor `findChild` from `current`
returns it. -/
theorem slash_name_created_never_resolved (fs : FileSystem) (hr : FileSystem.Reachable fs)
    (nd : Node) (n : Str) (op : Op)
    (hnd : fs.heap[fs.current]? = some nd) (ht : nd.m_nodeType = NodeType.DIRECTORY)
    (hn : ∀ v, (n, v) ∉ nd.m_children) (hs : '/' ∈ n)
    (hop : op = Op.createDirectory n ∨ op = Op.createFile n) (ops : List Op) (path : Str) :
    (fs.step op).1 = Result.returned ∧
    (∃ new : Node, (fs.step op).2.heap[fs.heap.length]? = some new ∧ new.m_name = n ∧
      new.m_parent = some fs.current ∧ new.m_children = [] ∧
      (new.m_nodeType = NodeType.DIRECTORY ↔ op = Op.createDirectory n)) ∧
    (∃ later : Node, ((fs.step op).2.run ops).heap[fs.heap.length]? = some later ∧
      later.m_name = n) ∧
    ((fs.step op).2.run ops).current ≠ fs.heap.length ∧
    Directory.findChild ((fs.step op).2.run ops).heap ((fs.step op).2.run ops).root path ≠
      Except.ok fs.heap.length ∧
    Directory.findChild ((fs.step op).2.run ops).heap ((fs.step op).2.run ops).current path ≠
      Except.ok fs.heap.length := by
  have hf : nd.m_children.find n = none := (Children.find_eq_none_iff _ _).mpr hn
  have hpos : 0 < fs.heap.length := by
    have := Heap.lt_length_of_getElem? fs.heap fs.current nd hnd
    omega
  have hcreated : (fs.step op).1 = Result.returned ∧
      ∃ new : Node, (fs.step op).2.heap[fs.heap.length]? = some new ∧ new.m_name = n ∧
        new.m_parent = some fs.current ∧ new.m_children = [] ∧
        (new.m_nodeType = NodeType.DIRECTORY ↔ op = Op.createDirectory n) := by
    rcases hop with hop | hop
    · obtain ⟨h1, _, _, _, h5, _⟩ := FileSystem.createdIn_of_createNode fs nd n true hnd ht hf
      rw [hop]
      exact ⟨h1, _, h5, rfl, rfl, rfl, by simp⟩
    · obtain ⟨h1, _, _, _, h5, _⟩ := FileSystem.createdIn_of_createNode fs nd n false hnd ht hf
      rw [hop]
      exact ⟨h1, _, h5, rfl, rfl, rfl, by simp⟩
  obtain ⟨hret, new, hnew, hname, hrest⟩ := hcreated
  obtain ⟨later, hlater, e1, _⟩ := FileSystem.run_heap_grows ops (fs.step op).2 _ new hnew
  have hr' : FileSystem.Reachable ((fs.step op).2.run ops) := by
    have : (fs.step op).2.run ops = fs.run (op :: ops) := rfl
    rw [this]
    exact hr.run _
  obtain ⟨hroot, hwf⟩ := hr'.wellFormed
  have hcur := hr'.cursorSlashFree
  have hlname : '/' ∈ later.m_name := by rw [e1, hname]; exact hs
  have hnot : ∀ r : Nat,
      (r = 0 ∨ ∃ nr : Node, ((fs.step op).2.run ops).heap[r]? = some nr ∧ '/' ∉ nr.m_name) →
      r ≠ fs.heap.length := by
    intro r hr1 e
    rcases hr1 with hr1 | ⟨nr, hnr, hsl⟩
    · omega
    · rw [e, hlater] at hnr
      cases hnr
      exact hsl hlname
  refine ⟨hret, ⟨new, hnew, hname, hrest⟩, ⟨later, hlater, e1.trans hname⟩, hnot _ hcur, ?_, ?_⟩
  · intro hfc
    rcases Directory.findChild_slash_free _ hwf _ _ _ hfc with h1 | h1
    · exact hnot _ (Or.inl (h1.trans hroot)) rfl
    · exact hnot _ (Or.inr h1) rfl
  · intro hfc
    rcases Directory.findChild_slash_free _ hwf _ _ _ hfc with h1 | h1
    · rw [h1] at hnot
      exact hnot _ hcur rfl
    · exact hnot _ (Or.inr h1) rfl

/-- Witness for `slash_name_created_never_resolved`: the directory "a/b" created in the root of
a fresh `FileSystem`, followed by `changeDirectory "a/b"`, and the path "/a/b". -/
theorem slash_name_created_never_resolved_witness :
    (FileSystem.new.step (Op.createDirectory ['a', '/', 'b'])).1 = Result.returned ∧
    ((FileSystem.new.step (Op.createDirectory ['a', '/', 'b'])).2.run
      [Op.changeDirectory ['a', '/', 'b']]).current ≠ FileSystem.new.heap.length :=
  ⟨(slash_name_created_never_resolved FileSystem.new ⟨[], rfl⟩ (Directory.mk ['/'] none)
      ['a', '/', 'b'] (Op.createDirectory ['a', '/', 'b']) rfl rfl (by intro v hv; cases hv)
      (by decide) (Or.inl rfl) [Op.changeDirectory ['a', '/', 'b']] ['/', 'a', '/', 'b']).1,
    (slash_name_created_never_resolved FileSystem.new ⟨[], rfl⟩ (Directory.mk ['/'] none)
      ['a', '/', 'b'] (Op.createDirectory ['a', '/', 'b']) rfl rfl (by intro v hv; cases hv)
      (by decide) (Or.inl rfl) [Op.changeDirectory ['a', '/', 'b']]
      ['/', 'a', '/', 'b']).2.2.2.1⟩

/-! ## Paths identify nodes -/

theorem Directory.createNode_namesValid (heap : Heap) (this : Nat) (name : Str) (b : Bool)
    (hname : name ≠ [] ∧ '/' ∉ name) (hv : Heap.NamesValid heap) :
    Heap.NamesValid (Directory.createNode heap this name b).2 := by
  rcases Directory.createNode_cases heap this name b with ⟨h, _⟩ | ⟨d, hd, _, _, heq⟩
  · rw [h]
    exact hv
  · rw [heq]
    simp only []
    have hthis := Heap.lt_length_of_getElem? heap this d hd
    intro i ni hi hi0
    rw [Heap.getElem?_set_append heap this _ _ i hthis] at hi
    by_cases hit : i = this
    · subst hit
      simp only [if_true, Option.some.injEq] at hi
      subst hi
      exact hv i d hd hi0
    · simp only [hit, if_false] at hi
      by_cases hil : i = heap.length
      · simp only [hil, if_true, Option.some.injEq] at hi
        subst hi
        cases b <;> exact hname
      · simp only [hil, if_false] at hi
        exact hv i ni hi hi0

theorem FileSystem.run_namesValid (ops : List Op) :
    ∀ fs : FileSystem, (∀ op ∈ ops, op.ValidName) → Heap.NamesValid fs.heap →
      Heap.NamesValid (fs.run ops).heap := by
  induction ops with
  | nil => intro fs _ h; exact h
  | cons op ops ih =>
    intro fs hops h
    refine ih _ (fun o ho => hops o (List.mem_cons_of_mem _ ho)) ?_
    have hop := hops op (List.mem_cons_self _ _)
    cases op with
    | createDirectory name =>
      exact Directory.createNode_namesValid fs.heap fs.current name true hop h
    | createFile name =>
      exact Directory.createNode_namesValid fs.heap fs.current name false hop h
    | changeDirectory path =>
      simp only [FileSystem.step]
      rw [(FileSystem.changeDirectory_heap_root fs path).1]
      exact h

theorem Heap.namesValid_new : Heap.NamesValid FileSystem.new.heap := by
  intro i n hi hi0
  have hlt := Heap.lt_length_of_getElem? _ i n hi
  simp [FileSystem.new] at hlt
  exact absurd hlt hi0

/-- With valid names every object is reached from address 0 through valid names. -/
theorem Heap.Linked.exists_descend_valid {heap : Heap} (hl : Heap.Linked heap)
    (hv : Heap.NamesValid heap) :
    ∀ (i : Nat) (n : Node), heap[i]? = some n →
      ∃ names : List Str, Directory.descend heap 0 names = some i ∧
        ∀ s ∈ names, s ≠ [] ∧ '/' ∉ s := by
  intro i
  induction i using Nat.strong_induction_on with
  | _ i ih =>
    intro n hi
    by_cases hi0 : i = 0
    · exact ⟨[], by rw [hi0]; rfl, fun s hs => by cases hs⟩
    · obtain ⟨p, np, _, hlt, hnp, hfind⟩ := hl.2 i n hi hi0
      obtain ⟨names, hnames, hval⟩ := ih p hlt np hnp
      refine ⟨names ++ [n.m_name],
        Directory.descend_snoc heap names _ 0 p i np hnames hnp hfind, ?_⟩
      intro s hs
      simp only [List.mem_append, List.mem_singleton] at hs
      rcases hs with hs | hs
      · exact hval s hs
      · rw [hs]
        exact hv i n hi hi0

theorem getlines_intercalate_valid (names : List Str)
    (hnames : ∀ n ∈ names, n ≠ [] ∧ '/' ∉ n) :
    getlines (List.intercalate ['/'] names) = names := by
  cases names with
  | nil => simp [List.intercalate, getlines]
  | cons n rest => exact getlines_intercalate (n :: rest) (by simp) hnames

/-- Claim C19 (path strings identify nodes).  Let a state be produced from a fresh `FileSystem` by
calls whose created names are all non-empty and without '/'.  Then `printWorkingDirectory`
returns a string on every object, two objects (directories or files) on which it returns the
same string are the same object, and when `FileSystem::printWorkingDirectory` returns "/" the
cursor is the root. -/
theorem printWorkingDirectory_injective (ops : List Op) (hops : ∀ op ∈ ops, op.ValidName)
    (i j : Nat) (ni nj : Node)
    (hi : (FileSystem.new.run ops).heap[i]? = some ni)
    (hj : (FileSystem.new.run ops).heap[j]? = some nj) :
    (∃ pwd : Str, Directory.printWorkingDirectory (FileSystem.new.run ops).heap i = some pwd) ∧
    (Directory.printWorkingDirectory (FileSystem.new.run ops).heap i =
        Directory.printWorkingDirectory (FileSystem.new.run ops).heap j → i = j) ∧
    ((FileSystem.new.run ops).printWorkingDirectory = some ['/'] →
      (FileSystem.new.run ops).current = (FileSystem.new.run ops).root) := by
  have hr : FileSystem.Reachable (FileSystem.new.run ops) := ⟨ops, rfl⟩
  obtain ⟨hroot, hwf⟩ := hr.wellFormed
  have hl := hr.linked
  have hv := FileSystem.run_namesValid ops FileSystem.new hops Heap.namesValid_new
  have key : ∀ (a b : Nat) (na nb : List Str),
      Directory.descend (FileSystem.new.run ops).heap 0 na = some a →
      (∀ s ∈ na, s ≠ [] ∧ '/' ∉ s) →
      Directory.descend (FileSystem.new.run ops).heap 0 nb = some b →
      (∀ s ∈ nb, s ≠ [] ∧ '/' ∉ s) →
      Directory.printWorkingDirectory (FileSystem.new.run ops).heap a =
        Directory.printWorkingDirectory (FileSystem.new.run ops).heap b → a = b := by
    intro a b na nb ha hva hb hvb heq
    rw [Directory.printWorkingDirectory_descend _ hwf na a ha,
      Directory.printWorkingDirectory_descend _ hwf nb b hb] at heq
    simp only [Option.some.injEq, List.cons.injEq, true_and] at heq
    have e : na = nb := by
      rw [← getlines_intercalate_valid na hva, ← getlines_intercalate_valid nb hvb, heq]
    rw [e, hb] at ha
    cases ha
    rfl
  obtain ⟨namesi, hdi, hvi⟩ := hl.exists_descend_valid hv i ni hi
  obtain ⟨namesj, hdj, hvj⟩ := hl.exists_descend_valid hv j nj hj
  refine ⟨⟨_, Directory.printWorkingDirectory_descend _ hwf namesi i hdi⟩,
    key i j namesi namesj hdi hvi hdj hvj, ?_⟩
  intro hP
  rw [hroot]
  unfold FileSystem.printWorkingDirectory at hP
  cases hc : (FileSystem.new.run ops).heap[(FileSystem.new.run ops).current]? with
  | none => simp [Directory.printWorkingDirectory, hc] at hP
  | some nc =>
    obtain ⟨namesc, hdc, hvc⟩ := hl.exists_descend_valid hv _ nc hc
    have h0 : Directory.printWorkingDirectory (FileSystem.new.run ops).heap 0 = some ['/'] :=
      Directory.printWorkingDirectory_descend _ hwf [] 0 rfl
    exact key _ 0 namesc [] hdc hvc rfl (fun s hs => by cases hs) (hP.trans h0.symm)

/-- Witness for `printWorkingDirectory_injective`: the directory "a" and the file "f" inside it,
at addresses 1 and 2. -/
theorem printWorkingDirectory_injective_witness :
    (∃ pwd : Str, Directory.printWorkingDirectory
      (FileSystem.new.run [Op.createDirectory ['a'], Op.changeDirectory ['a'],
        Op.createFile ['f']]).heap 1 = some pwd) ∧
    (Directory.printWorkingDirectory
        (FileSystem.new.run [Op.createDirectory ['a'], Op.changeDirectory ['a'],
          Op.createFile ['f']]).heap 1 =
      Directory.printWorkingDirectory
        (FileSystem.new.run [Op.createDirectory ['a'], Op.changeDirectory ['a'],
          Op.createFile ['f']]).heap 2 → 1 = 2) ∧
    ((FileSystem.new.run [Op.createDirectory ['a'], Op.changeDirectory ['a'],
        Op.createFile ['f']]).printWorkingDirectory = some ['/'] →
      (FileSystem.new.run [Op.createDirectory ['a'], Op.changeDirectory ['a'],
        Op.createFile ['f']]).current =
      (FileSystem.new.run [Op.createDirectory ['a'], Op.changeDirectory ['a'],
        Op.createFile ['f']]).root) :=
  printWorkingDirectory_injective
    [Op.createDirectory ['a'], Op.changeDirectory ['a'], Op.createFile ['f']]
    (by
      intro op hop
      simp only [List.mem_cons, List.mem_singleton, List.not_mem_nil, or_false] at hop
      rcases hop with h | h | h <;> subst h <;> simp [Op.ValidName])
    1 2
    { m_name := ['a'], m_parent := some 0, m_nodeType := NodeType.DIRECTORY,
      m_children := [(['f'], 2)] }
    (File.mk ['f'] (some 1)) (by decide) (by decide)

end InMemoryFS
